import Mathlib

/-!
# Verification of the AstroBurst numeric core

Shallow embedding of the Rust image-processing engine
(`src-tauri/src/domain/*.rs`, `src-tauri/src/model/header.rs`,
`src-tauri/src/utils/mmap.rs`) and proofs about the claims of its
specification.

Modelling conventions:

* An `f32`/`f64` value is modelled as `Px := Option ℚ`: `some q` is a finite
  value with exact rational magnitude, `none` is any non-finite value
  (NaN, `inf`, `-inf`).  Floating-point rounding and overflow are abstracted:
  arithmetic on finite values is exact rational arithmetic.  All the inputs
  appearing in the claims are exactly representable, so this abstraction is
  faithful on them.
* Images (`ndarray::Array2<f32>`) are stored row-major; elementwise code is
  embedded over the flattened pixel slice (`List Px`), exactly as the Rust
  code iterates over `as_slice()`.  Where two-dimensional indexing matters
  (shifting, offset search) explicit `rows`/`cols` arguments carry the shape.
* Rayon parallel folds (`par_iter().fold(..).reduce(..)`) are embedded as the
  equivalent sequential folds; the reductions involved (`min`, `max`, `+` on
  exact rationals, per-bin `+` on `ℕ`) are associative and commutative, so the
  sequential fold is the unique value any parallel schedule produces.
-/

/-- A pixel value: `some q` models a finite `f32`, `none` models any
non-finite value (NaN or an infinity). -/
abbrev Px : Type := Option ℚ

/-- `v.is_finite()` on the modelled value. -/
def pxFinite : Px → Bool
  | some _ => true
  | none => false

/-- Subtraction of two pixel values; any non-finite operand poisons the
result, as IEEE NaN/inf propagation does. -/
def pxSub : Px → Px → Px
  | some a, some b => some (a - b)
  | _, _ => none

/-- Multiplication of a pixel value by a finite scalar
(`master_dark * exposure_ratio`). -/
def pxMulC : Px → ℚ → Px
  | some a, r => some (a * r)
  | none, _ => none

/-- Division of pixel values.  Division by exact zero yields an infinity,
hence `none` in the model; finite/finite(≠0) stays finite. -/
def pxDiv : Px → Px → Px
  | some a, some b => if b = 0 then none else some (a / b)
  | _, _ => none

/-- Element read on the flattened pixel slice (in-bounds everywhere it is
used; `none` as the out-of-bounds default). -/
def getPx (l : List Px) (i : ℕ) : Px := l.getD i none

/-! ## Calibration (`domain/calibration.rs`) -/

/-- `subtract_bias` (calibration.rs:199): `image - master_bias`, elementwise
on the flattened slices. -/
def subtract_bias (image master_bias : List Px) : List Px :=
  List.zipWith pxSub image master_bias

/-- `subtract_dark` (calibration.rs:203): `image - master_dark * ratio`. -/
def subtract_dark (image master_dark : List Px) (exposure_ratio : ℚ) : List Px :=
  List.zipWith (fun a d => pxSub a (pxMulC d exposure_ratio)) image master_dark

/-- The per-pixel body of `divide_flat` (calibration.rs:217):
`if flat_val.is_finite() && flat_val.abs() > 0.01 { v / flat } else { v }`. -/
def flatRule (v flat_val : Px) : Px :=
  match flat_val with
  | some q => if |q| > 1 / 100 then pxDiv v (some q) else v
  | none => v

/-- `divide_flat` (calibration.rs:211-225), flattened loop over `(y, x)`. -/
def divide_flat (image master_flat : List Px) : List Px :=
  List.zipWith flatRule image master_flat

/-- `CalibrationConfig` (calibration.rs:227-232). -/
structure CalibrationConfig where
  master_bias : Option (List Px)
  master_dark : Option (List Px)
  master_flat : Option (List Px)
  dark_exposure_ratio : ℚ

/-- `calibrate_image` (calibration.rs:234-248): optional bias subtraction,
then optional dark subtraction, then optional flat division. -/
def calibrate_image (raw : List Px) (config : CalibrationConfig) : List Px :=
  let c1 := match config.master_bias with
    | some bias => subtract_bias raw bias
    | none => raw
  let c2 := match config.master_dark with
    | some dark => subtract_dark c1 dark config.dark_exposure_ratio
    | none => c1
  match config.master_flat with
  | some flat => divide_flat c2 flat
  | none => c2

/-- The pixel an absent optional master contributes at index `i`: a present
master contributes its own pixel, an absent one the neutral value `0`
(`raw - 0 = raw`, and the flat-safety rule passes the pixel through
unchanged at flat value `0`). -/
def optPxAt (m : Option (List Px)) (i : ℕ) : Px :=
  match m with
  | some l => getPx l i
  | none => some 0

lemma getPx_zipWith (f : Px → Px → Px) (xs ys : List Px) (i : ℕ)
    (hx : i < xs.length) (hy : i < ys.length) :
    getPx (List.zipWith f xs ys) i = f (getPx xs i) (getPx ys i) := by
  induction xs generalizing ys i with
  | nil => simp at hx
  | cons x xs ih =>
    cases ys with
    | nil => simp at hy
    | cons y ys =>
      cases i with
      | zero => simp [getPx]
      | succ n =>
        simp only [List.zipWith_cons_cons, getPx, List.getD_cons_succ]
        exact ih ys n (by simpa using hx) (by simpa using hy)

lemma pxSub_zero (v : Px) : pxSub v (some 0) = v := by
  cases v <;> simp [pxSub]

lemma flatRule_zero (v : Px) : flatRule v (some 0) = v := by
  simp [flatRule]

/-- C1: calibration is the pointwise formula with the flat-safety rule. -/
theorem calibrate_image_pointwise (raw : List Px) (config : CalibrationConfig)
    (hb : ∀ b ∈ config.master_bias, b.length = raw.length)
    (hd : ∀ d ∈ config.master_dark, d.length = raw.length)
    (hf : ∀ f ∈ config.master_flat, f.length = raw.length)
    (i : ℕ) (hi : i < raw.length) :
    getPx (calibrate_image raw config) i =
      flatRule
        (pxSub (pxSub (getPx raw i) (optPxAt config.master_bias i))
          (pxMulC (optPxAt config.master_dark i) config.dark_exposure_ratio))
        (optPxAt config.master_flat i) := by
  obtain ⟨mb, md, mf, ratio⟩ := config
  have hsub1 : ∀ l : List Px, l.length = raw.length →
      getPx (subtract_bias raw l) i = pxSub (getPx raw i) (getPx l i) := by
    intro l hl
    exact getPx_zipWith _ _ _ _ hi (hl ▸ hi)
  cases mb with
  | none =>
    cases md with
    | none =>
      cases mf with
      | none =>
        simp [calibrate_image, optPxAt, pxSub_zero, flatRule_zero, pxMulC]
      | some f =>
        have hfl : f.length = raw.length := hf f rfl
        simp only [calibrate_image, optPxAt, divide_flat]
        rw [getPx_zipWith _ _ _ _ hi (hfl ▸ hi)]
        simp [pxSub_zero, pxMulC]
    | some d =>
      have hdl : d.length = raw.length := hd d rfl
      have hlen2 : (subtract_dark raw d ratio).length = raw.length := by
        simp [subtract_dark, hdl]
      cases mf with
      | none =>
        simp only [calibrate_image, optPxAt, subtract_dark]
        rw [getPx_zipWith _ _ _ _ hi (hdl ▸ hi)]
        simp [pxSub_zero, flatRule_zero]
      | some f =>
        have hfl : f.length = raw.length := hf f rfl
        simp only [calibrate_image, optPxAt, divide_flat, subtract_dark]
        rw [getPx_zipWith _ _ _ _ (by simpa [hdl] using hi) (hfl ▸ hi),
          getPx_zipWith _ _ _ _ hi (hdl ▸ hi)]
        simp [pxSub_zero]
  | some b =>
    have hbl : b.length = raw.length := hb b rfl
    have hlen1 : (subtract_bias raw b).length = raw.length := by
      simp [subtract_bias, hbl]
    cases md with
    | none =>
      cases mf with
      | none =>
        simp only [calibrate_image, optPxAt, subtract_bias]
        rw [getPx_zipWith _ _ _ _ hi (hbl ▸ hi)]
        simp [pxSub_zero, flatRule_zero, pxMulC]
      | some f =>
        have hfl : f.length = raw.length := hf f rfl
        simp only [calibrate_image, optPxAt, divide_flat, subtract_bias]
        rw [getPx_zipWith _ _ _ _ (by simpa [hbl] using hi) (hfl ▸ hi),
          getPx_zipWith _ _ _ _ hi (hbl ▸ hi)]
        simp [pxSub_zero, pxMulC]
    | some d =>
      have hdl : d.length = raw.length := hd d rfl
      have hlen2 : (subtract_dark (subtract_bias raw b) d ratio).length
          = raw.length := by
        simp [subtract_dark, subtract_bias, hbl, hdl]
      cases mf with
      | none =>
        simp only [calibrate_image, optPxAt, subtract_dark, subtract_bias]
        rw [getPx_zipWith _ _ _ _ (by simpa [hbl] using hi) (hdl ▸ hi),
          getPx_zipWith _ _ _ _ hi (hbl ▸ hi)]
        simp [flatRule_zero]
      | some f =>
        have hfl : f.length = raw.length := hf f rfl
        simp only [calibrate_image, optPxAt, divide_flat, subtract_dark,
          subtract_bias]
        rw [getPx_zipWith _ _ _ _ (by simpa [hbl, hdl] using hi) (hfl ▸ hi),
          getPx_zipWith _ _ _ _ (by simpa [hbl] using hi) (hdl ▸ hi),
          getPx_zipWith _ _ _ _ hi (hbl ▸ hi)]

/-- Witness for C1, at the spec's flat-safety scenario: image
`[[100,200],[300,400]]`, flat `[[0,1],[NaN,2]]`, no bias or dark.  The
claim's expected output at pixel `(1,1)` is `400 / 2 = 200`
(and the theorem instance below also evaluates pixel `(1,0)`, where the NaN
flat passes `300` through unchanged). -/
theorem calibrate_image_pointwise_witness :
    getPx (calibrate_image [some 100, some 200, some 300, some 400]
      ⟨none, none, some [some 0, some 1, none, some 2], 1⟩) 3 = some 200 ∧
    getPx (calibrate_image [some 100, some 200, some 300, some 400]
      ⟨none, none, some [some 0, some 1, none, some 2], 1⟩) 2 = some 300 := by
  constructor
  · have h := calibrate_image_pointwise
      [some 100, some 200, some 300, some 400]
      ⟨none, none, some [some 0, some 1, none, some 2], 1⟩
      (by simp) (by simp) (by intro f hfm; cases hfm; decide) 3 (by decide)
    rw [h]; norm_num [flatRule, pxSub, pxMulC, pxDiv, getPx, optPxAt]
  · have h := calibrate_image_pointwise
      [some 100, some 200, some 300, some 400]
      ⟨none, none, some [some 0, some 1, none, some 2], 1⟩
      (by simp) (by simp) (by intro f hfm; cases hfm; decide) 2 (by decide)
    rw [h]; norm_num [flatRule, pxSub, pxMulC, pxDiv, getPx, optPxAt]

/-! ## Statistics (`domain/stats.rs`) -/

/-- Executable `f64::max` on finite values (Mathlib's lattice `max` on `ℚ`
does not kernel-reduce; this `if`-based form does, and equals it). -/
def qmax (a b : ℚ) : ℚ := if a ≤ b then b else a

/-- Executable `f64::min` on finite values. -/
def qmin (a b : ℚ) : ℚ := if a ≤ b then a else b

/-- Executable `f64::abs` on finite values. -/
def qabs (a : ℚ) : ℚ := if a < 0 then -a else a

lemma qmax_eq_max (a b : ℚ) : qmax a b = max a b := by
  rw [qmax, max_def]

lemma qmin_eq_min (a b : ℚ) : qmin a b = min a b := by
  rw [qmin, min_def]

lemma qabs_eq_abs (a : ℚ) : qabs a = |a| := by
  rcases lt_or_le a 0 with h | h
  · simp [qabs, h, abs_of_neg h]
  · simp [qabs, not_lt.mpr h, abs_of_nonneg h]

lemma le_qmax_left (a b : ℚ) : a ≤ qmax a b := by
  unfold qmax; split <;> linarith

lemma le_qmax_right (a b : ℚ) : b ≤ qmax a b := by
  unfold qmax; split <;> linarith

lemma qmin_le_left (a b : ℚ) : qmin a b ≤ a := by
  unfold qmin; split <;> linarith

lemma qmin_le_right (a b : ℚ) : qmin a b ≤ b := by
  unfold qmin; split <;> linarith

/-- `PADDING_THRESHOLD` (stats.rs:4). -/
def PADDING_THRESHOLD : ℚ := 1 / 10000000

/-- `MAD_TO_SIGMA` (stats.rs:5). -/
def MAD_TO_SIGMA : ℚ := 14826 / 10000

/-- `HISTOGRAM_BINS` (stats.rs:6). -/
def HISTOGRAM_BINS : ℕ := 65536

/-- `is_valid_pixel` (stats.rs:8-11): `v.is_finite() && v > 1e-7`. -/
def is_valid_pixel : Px → Bool
  | some q => decide (PADDING_THRESHOLD < q)
  | none => false

/-- `ImageStats` (stats.rs:13-22). -/
structure ImageStats where
  min : ℚ
  max : ℚ
  median : ℚ
  mad : ℚ
  sigma : ℚ
  mean : ℚ
  valid_count : ℕ
deriving DecidableEq

/-- `ImageStats::default` (stats.rs:24-36): everything zero. -/
def ImageStats.default : ImageStats := ⟨0, 0, 0, 0, 0, 0, 0⟩

/-- The valid pixels of a frame, in slice order (the `par_iter().filter()`
collect in `compute_image_stats`). -/
def validVals (data : List Px) : List ℚ :=
  (data.filter (fun v => is_valid_pixel v)).filterMap (fun v => v)

/-- Insertion step for the sort underlying the order statistics. -/
def insertSorted (x : ℚ) : List ℚ → List ℚ
  | [] => [x]
  | y :: ys => if x ≤ y then x :: y :: ys else y :: insertSorted x ys

/-- Sorted copy of a rational list. -/
def sortQ (l : List ℚ) : List ℚ := l.foldr insertSorted []

/-- `exact_median_mut` / `exact_median_f64` (stats.rs:217-258):
`select_nth_unstable_by` places the `mid`-th order statistic at `mid` and
every smaller element below it, so for even `n` the source's
"max of the lower half" is the `(mid-1)`-th order statistic; the embedding
reads both order statistics off a sorted copy. -/
def exact_median (l : List ℚ) : ℚ :=
  if l.length = 0 then 0
  else
    let s := sortQ l
    let mid := l.length / 2
    if l.length % 2 = 0 then ((s.getD (mid - 1) 0) + s.getD mid 0) / 2
    else s.getD mid 0

/-- Fold for the running minimum of the one-pass `Accum` reduction
(stats.rs:72-105); `f64::MAX` as the initial accumulator means the result
over a nonempty list is its least element. -/
def listMin : List ℚ → ℚ
  | [] => 0
  | x :: xs => xs.foldl qmin x

/-- Running maximum of the one-pass reduction. -/
def listMax : List ℚ → ℚ
  | [] => 0
  | x :: xs => xs.foldl qmax x

/-- Running sum of the one-pass reduction. -/
def listSum (l : List ℚ) : ℚ := l.foldl (· + ·) 0

/-- `compute_image_stats` (stats.rs:48-116). -/
def compute_image_stats (data : List Px) : ImageStats :=
  let valid := validVals data
  let n := valid.length
  if n = 0 then ImageStats.default
  else
    let median := exact_median valid
    let mad := exact_median (valid.map fun v => qabs (v - median))
    let sigma := qmax (mad * MAD_TO_SIGMA) (1 / 10 ^ 30)
    { min := listMin valid
      max := listMax valid
      median := median
      mad := mad
      sigma := sigma
      mean := listSum valid / (n : ℚ)
      valid_count := n }

/-- `Histogram` (stats.rs:38-46); the 65536-entry bin vector is modelled as
the function sending a bin index to its count. -/
structure Histogram where
  bins : ℕ → ℕ
  bin_count : ℕ
  data_min : ℚ
  data_max : ℚ
  bin_width : ℚ
  total_pixels : ℕ

/-- Increment one bin of the histogram accumulator
(`local_bins[idx] += 1`). -/
def bump (f : ℕ → ℕ) (i : ℕ) : ℕ → ℕ := fun j => if j = i then f j + 1 else f j

/-- `let idx = ((v - dmin) * inv_range) as usize; idx.min(BINS - 1)`
(stats.rs:147-148).  Rust's `as usize` on an `f64` truncates toward zero and
saturates below at 0; on every rational input `Int.toNat ∘ Int.floor` agrees
with that (negative inputs land at 0). -/
def binIndex (dmin inv_range : ℚ) (v : ℚ) : ℕ :=
  Nat.min (Int.toNat ⌊(v - dmin) * inv_range⌋) (HISTOGRAM_BINS - 1)

/-- `compute_histogram` (stats.rs:118-173).  The parallel
`par_chunks(..).fold(..).reduce(..)` sums per-chunk bin vectors; per-bin
`ℕ`-addition is associative and commutative, so every chunking yields the
single sequential fold embedded here. -/
def compute_histogram (data : List Px) (stats : ImageStats) : Histogram :=
  if stats.valid_count = 0 then
    { bins := fun _ => 0
      bin_count := HISTOGRAM_BINS
      data_min := 0
      data_max := 1
      bin_width := 1 / (HISTOGRAM_BINS : ℚ)
      total_pixels := 0 }
  else
    let dmin := stats.min
    let range := qmax (stats.max - dmin) (1 / 10 ^ 30)
    let inv_range := ((HISTOGRAM_BINS - 1 : ℕ) : ℚ) / range
    let bins := data.foldl
      (fun acc v =>
        if is_valid_pixel v then bump acc (binIndex dmin inv_range (v.getD 0))
        else acc)
      (fun _ => 0)
    { bins := bins
      bin_count := HISTOGRAM_BINS
      data_min := dmin
      data_max := stats.max
      bin_width := range / (HISTOGRAM_BINS : ℚ)
      total_pixels := stats.valid_count }

lemma binIndex_lt (dmin inv_range v : ℚ) :
    binIndex dmin inv_range v < HISTOGRAM_BINS := by
  have h := Nat.min_le_right (Int.toNat ⌊(v - dmin) * inv_range⌋) (HISTOGRAM_BINS - 1)
  calc binIndex dmin inv_range v ≤ HISTOGRAM_BINS - 1 := h
    _ < HISTOGRAM_BINS := by unfold HISTOGRAM_BINS; omega

lemma sum_bump (f : ℕ → ℕ) (i N : ℕ) (hi : i < N) :
    ∑ j ∈ Finset.range N, bump f i j = (∑ j ∈ Finset.range N, f j) + 1 := by
  have hsplit : ∀ j, bump f i j = f j + (if j = i then 1 else 0) := by
    intro j; unfold bump; split <;> simp
  simp only [hsplit, Finset.sum_add_distrib]
  congr 1
  simp [Finset.sum_ite_eq', Finset.mem_range.mpr hi]

lemma sum_hist_fold (dmin inv_range : ℚ) (data : List Px) (acc : ℕ → ℕ) :
    ∑ i ∈ Finset.range HISTOGRAM_BINS,
      (data.foldl
        (fun acc v =>
          if is_valid_pixel v then bump acc (binIndex dmin inv_range (v.getD 0))
          else acc) acc) i
    = (∑ i ∈ Finset.range HISTOGRAM_BINS, acc i)
      + data.countP (fun v => is_valid_pixel v) := by
  induction data generalizing acc with
  | nil => simp
  | cons v vs ih =>
    simp only [List.foldl_cons, List.countP_cons]
    by_cases hv : is_valid_pixel v
    · rw [if_pos hv, ih, sum_bump _ _ _ (binIndex_lt _ _ _)]
      simp only [hv, if_pos]
      omega
    · rw [if_neg hv, ih]
      simp [hv]

lemma validVals_length_eq_countP (data : List Px) :
    (validVals data).length = data.countP (fun v => is_valid_pixel v) := by
  induction data with
  | nil => simp [validVals]
  | cons v vs ih =>
    cases v with
    | none => simpa [validVals, is_valid_pixel, List.countP_cons] using ih
    | some q =>
      by_cases hq : is_valid_pixel (some q)
      · simp only [validVals, List.filter_cons, hq, if_pos, List.filterMap_cons,
          List.countP_cons]
        simpa [validVals, hq] using ih
      · simp only [validVals, List.filter_cons, hq, List.countP_cons]
        simpa [validVals, hq] using ih

lemma compute_image_stats_valid_count (data : List Px) :
    (compute_image_stats data).valid_count = (validVals data).length := by
  unfold compute_image_stats
  by_cases h : (validVals data).length = 0 <;> simp [h, ImageStats.default]

/-- C2: the 65536 histogram bins sum to the number of valid pixels reported
by `compute_image_stats`: every valid pixel lands in exactly one (clamped)
bin, and invalid pixels are never counted. -/
theorem histogram_sum_eq_valid_count (data : List Px) (stats : ImageStats)
    (h : stats = compute_image_stats data) :
    ∑ i ∈ Finset.range HISTOGRAM_BINS, (compute_histogram data stats).bins i
      = stats.valid_count := by
  subst h
  by_cases h0 : (compute_image_stats data).valid_count = 0
  · simp [compute_histogram, h0]
  · unfold compute_histogram
    rw [if_neg h0]
    simp only
    rw [sum_hist_fold]
    simp only [Finset.sum_const_zero, zero_add]
    rw [← validVals_length_eq_countP, ← compute_image_stats_valid_count]

/-- Witness for C2 at a concrete mixed frame (valid, padding, NaN and
negative pixels). -/
theorem histogram_sum_eq_valid_count_witness :
    ∑ i ∈ Finset.range HISTOGRAM_BINS,
      (compute_histogram [some 1, some 2, none, some 0, some (-3), some 5]
        (compute_image_stats [some 1, some 2, none, some 0, some (-3), some 5])).bins i
      = (compute_image_stats
          [some 1, some 2, none, some 0, some (-3), some 5]).valid_count :=
  histogram_sum_eq_valid_count _ _ rfl

/-! ## Screen transfer function (`domain/stf.rs`) -/

/-- Rust's `f64::clamp(self, lo, hi)`: `lo` if below, `hi` if above,
`self` otherwise. -/
def clampQ (x lo hi : ℚ) : ℚ := if x < lo then lo else if x > hi then hi else x

/-- `StfParams` (stf.rs:6-11). -/
structure StfParams where
  shadow : ℚ
  midtone : ℚ
  highlight : ℚ
deriving DecidableEq

/-- `StfParams::default` (stf.rs:13-21): shadow 0, midtone 0.25,
highlight 1. -/
def StfParams.default : StfParams := ⟨0, 1 / 4, 1⟩

/-- `AutoStfConfig` (stf.rs:23-27). -/
structure AutoStfConfig where
  target_bg : ℚ
  shadow_k : ℚ

/-- `AutoStfConfig::default` (stf.rs:29-36). -/
def AutoStfConfig.default : AutoStfConfig := ⟨1 / 4, -(28 / 10)⟩

/-- `mtf_balance` (stf.rs:72-79). -/
def mtf_balance (m t : ℚ) : ℚ :=
  let denom := 2 * t * m - t - m
  if qabs denom < 1 / 10 ^ 15 then 1 / 2
  else clampQ (m * (t - 1) / denom) (1 / 10000) (9999 / 10000)

/-- `auto_stf` (stf.rs:44-70). -/
def auto_stf (stats : ImageStats) (config : AutoStfConfig) : StfParams :=
  if stats.valid_count = 0 then StfParams.default
  else
    let range := qmax (stats.max - stats.min) (1 / 10 ^ 30)
    let median_norm := (stats.median - stats.min) / range
    let sigma_norm := stats.sigma / range
    let shadow_norm := qmax (median_norm + config.shadow_k * sigma_norm) 0
    let highlight_norm : ℚ := 1
    let clip_range := qmax (highlight_norm - shadow_norm) (1 / 10 ^ 15)
    let m_clipped := clampQ ((median_norm - shadow_norm) / clip_range) 0 1
    let midtone :=
      if m_clipped ≤ 0 ∨ 1 ≤ m_clipped then 1 / 2
      else mtf_balance m_clipped config.target_bg
    ⟨shadow_norm, midtone, highlight_norm⟩

/-- `mtf` (stf.rs:81-90): the midtones transfer function, `0` at or below 0,
`1` at or above 1, `(m-1)·x / ((2m-1)·x - m)` strictly between. -/
def mtf (x m : ℚ) : ℚ :=
  if x ≤ 0 then 0
  else if 1 ≤ x then 1
  else (m - 1) * x / ((2 * m - 1) * x - m)

/-- `apply_stf_f32` (stf.rs:118-144): per-pixel normalize, clip, stretch;
invalid pixels map to `0.0`.  The hoisted locals `range`, `inv_range`,
`dmin` and `clip_range` of the source are inlined. -/
def apply_stf_f32 (data : List Px) (params : StfParams) (stats : ImageStats) :
    List ℚ :=
  data.map fun v =>
    if is_valid_pixel v then
      mtf
        (clampQ
          (((v.getD 0 - stats.min)
              * (1 / qmax (stats.max - stats.min) (1 / 10 ^ 30))
            - params.shadow)
            / qmax (params.highlight - params.shadow) (1 / 10 ^ 15))
          0 1)
        params.midtone
    else 0

lemma foldl_qmin_le_init (xs : List ℚ) (b : ℚ) : xs.foldl qmin b ≤ b := by
  induction xs generalizing b with
  | nil => exact le_refl _
  | cons y ys ihy => exact le_trans (ihy (qmin b y)) (qmin_le_left b y)

lemma le_foldl_qmax_init (xs : List ℚ) (b : ℚ) : b ≤ xs.foldl qmax b := by
  induction xs generalizing b with
  | nil => exact le_refl _
  | cons y ys ihy => exact le_trans (le_qmax_left b y) (ihy (qmax b y))

lemma foldl_qmin_le (xs : List ℚ) (a v : ℚ) (h : v = a ∨ v ∈ xs) :
    xs.foldl qmin a ≤ v := by
  induction xs generalizing a with
  | nil =>
    rcases h with rfl | h
    · exact le_refl _
    · simp at h
  | cons x xs ih =>
    rcases h with rfl | h
    · exact le_trans (foldl_qmin_le_init xs (qmin v x)) (qmin_le_left v x)
    · rcases List.mem_cons.mp h with rfl | h
      · exact le_trans (foldl_qmin_le_init xs (qmin a v)) (qmin_le_right a v)
      · exact ih (qmin a x) (Or.inr h)

lemma foldl_qmax_ge (xs : List ℚ) (a v : ℚ) (h : v = a ∨ v ∈ xs) :
    v ≤ xs.foldl qmax a := by
  induction xs generalizing a with
  | nil =>
    rcases h with rfl | h
    · exact le_refl _
    · simp at h
  | cons x xs ih =>
    rcases h with rfl | h
    · exact le_trans (le_qmax_left v x) (le_foldl_qmax_init xs (qmax v x))
    · rcases List.mem_cons.mp h with rfl | h
      · exact le_trans (le_qmax_right a v) (le_foldl_qmax_init xs (qmax a v))
      · exact ih (qmax a x) (Or.inr h)

lemma listMin_le (l : List ℚ) (v : ℚ) (hv : v ∈ l) : listMin l ≤ v := by
  cases l with
  | nil => simp at hv
  | cons x xs =>
    rcases List.mem_cons.mp hv with rfl | h
    · exact foldl_qmin_le xs v v (Or.inl rfl)
    · exact foldl_qmin_le xs x v (Or.inr h)

lemma le_listMax (l : List ℚ) (v : ℚ) (hv : v ∈ l) : v ≤ listMax l := by
  cases l with
  | nil => simp at hv
  | cons x xs =>
    rcases List.mem_cons.mp hv with rfl | h
    · exact foldl_qmax_ge xs v v (Or.inl rfl)
    · exact foldl_qmax_ge xs x v (Or.inr h)

lemma mem_validVals (data : List Px) (q : ℚ) (hmem : some q ∈ data)
    (hvalid : is_valid_pixel (some q) = true) : q ∈ validVals data := by
  unfold validVals
  exact List.mem_filterMap.mpr ⟨some q, List.mem_filter.mpr ⟨hmem, hvalid⟩, rfl⟩

lemma validVals_eq_nil (data : List Px)
    (h : ∀ p ∈ data, is_valid_pixel p = false) : validVals data = [] := by
  unfold validVals
  have : data.filter (fun v => is_valid_pixel v) = [] :=
    List.filter_eq_nil_iff.mpr (by intro a ha; simp [h a ha])
  simp [this]

lemma is_valid_pixel_zero : is_valid_pixel (some (0 : ℚ)) = false := by
  simp only [is_valid_pixel, decide_eq_false_iff_not, not_lt, PADDING_THRESHOLD]
  norm_num

/-- `mtf(x, 0.5)` is the identity on `[0,1]`. -/
lemma mtf_half (x : ℚ) (h0 : 0 ≤ x) (h1 : x ≤ 1) : mtf x (1 / 2) = x := by
  unfold mtf
  split
  · linarith
  · split
    · linarith
    · have hden : (2 * (1 / 2 : ℚ) - 1) * x - 1 / 2 = -(1 / 2) := by ring
      rw [hden, div_eq_iff (by norm_num : -(1 / 2 : ℚ) ≠ 0)]
      ring

/-- Counterexample to C3 as stated: on a frame with zero valid pixels
`auto_stf` returns the *default* parameters, whose midtone is `0.25`, not
the identity midtone `0.5` the claim names. -/
theorem auto_stf_empty_midtone_counterexample :
    (auto_stf (compute_image_stats [some 0, some 0, some 0, some 0])
      AutoStfConfig.default).midtone ≠ 1 / 2 := by
  have hnil : validVals [some 0, some 0, some 0, some 0] = [] := by
    apply validVals_eq_nil
    intro p hp
    have hp0 : p = some 0 := by simpa using hp
    rw [hp0]
    exact is_valid_pixel_zero
  have hstats : compute_image_stats [some 0, some 0, some 0, some 0]
      = ImageStats.default := by
    unfold compute_image_stats
    rw [hnil]
    simp
  rw [hstats]
  simp only [auto_stf, ImageStats.default, if_pos rfl, StfParams.default]
  norm_num

/-- C3 (amended): on a frame with zero valid pixels `compute_image_stats`
returns the all-default `ImageStats` and `auto_stf` returns the *default*
STF parameters `{shadow 0, midtone 0.25, highlight 1}` — not the identity
midtone 0.5 the original claim states; separately, under the identity
parameters `{shadow 0, midtone 0.5, highlight 1}` `apply_stf_f32` maps
every valid pixel to its plain normalized value `(v - min) / range`. -/
theorem stf_empty_default_and_identity_params (cfg : AutoStfConfig) :
    (∀ data : List Px, (∀ p ∈ data, is_valid_pixel p = false) →
      compute_image_stats data = ImageStats.default ∧
      auto_stf (compute_image_stats data) cfg = StfParams.default) ∧
    (∀ (data : List Px) (i : ℕ) (q : ℚ), i < data.length →
      getPx data i = some q → is_valid_pixel (some q) = true →
      (apply_stf_f32 data ⟨0, 1 / 2, 1⟩ (compute_image_stats data)).getD i 0 =
        (q - (compute_image_stats data).min) /
          qmax ((compute_image_stats data).max - (compute_image_stats data).min)
            (1 / 10 ^ 30)) := by
  constructor
  · intro data hinv
    have hnil := validVals_eq_nil data hinv
    have hstats : compute_image_stats data = ImageStats.default := by
      unfold compute_image_stats
      rw [hnil]
      simp
    refine ⟨hstats, ?_⟩
    rw [hstats]
    simp [auto_stf, ImageStats.default]
  · intro data i q hlen hget hvalid
    have hgetE : data[i] = some q := by
      rw [← hget]; exact (List.getD_eq_getElem data none hlen).symm
    have hmem : some q ∈ data := hgetE ▸ List.getElem_mem hlen
    have hq : q ∈ validVals data := mem_validVals data q hmem hvalid
    have hne : (validVals data).length ≠ 0 :=
      fun h => by simp [List.length_eq_zero.mp h] at hq
    have hminq : (compute_image_stats data).min ≤ q := by
      unfold compute_image_stats
      rw [if_neg hne]
      exact listMin_le _ q hq
    have hmaxq : q ≤ (compute_image_stats data).max := by
      unfold compute_image_stats
      rw [if_neg hne]
      exact le_listMax _ q hq
    set stats := compute_image_stats data with hstats
    set dmin := stats.min with hdmin
    set range := qmax (stats.max - dmin) (1 / 10 ^ 30) with hrange
    have hrange_pos : 0 < range := lt_of_lt_of_le (by norm_num)
      (le_qmax_right (stats.max - dmin) (1 / 10 ^ 30))
    have hnorm0 : 0 ≤ (q - dmin) / range :=
      div_nonneg (by linarith) (le_of_lt hrange_pos)
    have hnorm1 : (q - dmin) / range ≤ 1 := by
      rw [div_le_one hrange_pos]
      exact le_trans (by linarith)
        (le_qmax_left (stats.max - dmin) (1 / 10 ^ 30))
    have hclip : qmax ((1 : ℚ) - 0) (1 / 10 ^ 15) = 1 := by
      unfold qmax
      norm_num
    have happly : (apply_stf_f32 data ⟨0, 1 / 2, 1⟩ stats).getD i 0
        = mtf (clampQ ((q - dmin) / range) 0 1) (1 / 2) := by
      unfold apply_stf_f32
      rw [List.getD_eq_getElem _ 0 (by simpa using hlen), List.getElem_map, hgetE]
      simp only [hvalid, if_true, Option.getD_some, hclip, ← hdmin, ← hrange]
      norm_num [div_eq_mul_inv]
    rw [happly]
    have hc : clampQ ((q - dmin) / range) 0 1 = (q - dmin) / range := by
      unfold clampQ
      rw [if_neg (by linarith), if_neg (by linarith)]
    rw [hc, mtf_half _ hnorm0 hnorm1]

/-- Witness for C3's amended statement: the all-invalid frame `[0, NaN]`
yields default stats and default auto-STF parameters, and on the frame
`[1, 2, 4]` the identity parameters map the middle pixel `2` to its plain
normalized value. -/
theorem stf_empty_default_and_identity_params_witness :
    compute_image_stats [some 0, none] = ImageStats.default ∧
    auto_stf (compute_image_stats [some 0, none]) AutoStfConfig.default
      = StfParams.default ∧
    (apply_stf_f32 [some 1, some 2, some 4] ⟨0, 1 / 2, 1⟩
        (compute_image_stats [some 1, some 2, some 4])).getD 1 0 =
      ((2 : ℚ) - (compute_image_stats [some 1, some 2, some 4]).min) /
        qmax ((compute_image_stats [some 1, some 2, some 4]).max
          - (compute_image_stats [some 1, some 2, some 4]).min) (1 / 10 ^ 30) := by
  obtain ⟨h1, h2⟩ := stf_empty_default_and_identity_params AutoStfConfig.default
  have hinv : ∀ p ∈ [(some 0 : Px), none], is_valid_pixel p = false := by
    intro p hp
    rcases List.mem_cons.mp hp with rfl | hp'
    · exact is_valid_pixel_zero
    · have : p = none := by simpa using hp'
      rw [this]
      rfl
  obtain ⟨ha, hb⟩ := h1 [some 0, none] hinv
  refine ⟨ha, hb, ?_⟩
  exact h2 [some 1, some 2, some 4] 1 2 (by simp) (by simp [getPx])
    (by simp only [is_valid_pixel, decide_eq_true_eq, PADDING_THRESHOLD]; norm_num)

lemma mtf_denom_neg (m x : ℚ) (hm0 : 0 < m) (hm1 : m < 1)
    (hx0 : 0 < x) (hx1 : x < 1) : (2 * m - 1) * x - m < 0 := by
  have h1 : 0 < x * (1 - m) := mul_pos hx0 (by linarith)
  have h2 : 0 < m * (1 - x) := mul_pos hm0 (by linarith)
  nlinarith [h1, h2]

lemma mtf_mem (x m : ℚ) (hm0 : 0 < m) (hm1 : m < 1) :
    0 ≤ mtf x m ∧ mtf x m ≤ 1 := by
  unfold mtf
  split
  · exact ⟨le_refl 0, by norm_num⟩
  · split
    · exact ⟨by norm_num, le_refl 1⟩
    · rename_i hx0 hx1
      have hx0' : 0 < x := lt_of_not_le hx0
      have hx1' : x < 1 := lt_of_not_le hx1
      have hden := mtf_denom_neg m x hm0 hm1 hx0' hx1'
      have hnum : (m - 1) * x < 0 :=
        mul_neg_of_neg_of_pos (by linarith) hx0'
      constructor
      · exact div_nonneg_iff.mpr (Or.inr ⟨le_of_lt hnum, le_of_lt hden⟩)
      · refine div_le_one_iff.mpr (Or.inr (Or.inr ⟨hden, ?_⟩))
        nlinarith [mul_nonneg (le_of_lt hm0) (by linarith : (0 : ℚ) ≤ 1 - x)]

lemma clampQ_mem (x lo hi : ℚ) (h : lo ≤ hi) :
    lo ≤ clampQ x lo hi ∧ clampQ x lo hi ≤ hi := by
  unfold clampQ
  split
  · exact ⟨le_refl lo, h⟩
  · split
    · exact ⟨h, le_refl hi⟩
    · rename_i h1 h2
      exact ⟨le_of_not_lt h1, le_of_not_lt h2⟩

/-- C10: with `0 < midtone < 1` and `shadow < highlight`, the midtones
transfer function's denominator `(2m-1)·x - m` is nonzero for every clipped
value `x ∈ (0,1)` (so `apply_stf_f32` never divides by zero), every output
pixel of `apply_stf_f32` lies in `[0,1]`, and every invalid input pixel maps
exactly to `0`. -/
theorem apply_stf_f32_total_and_bounded (params : StfParams)
    (hm0 : 0 < params.midtone) (hm1 : params.midtone < 1)
    (hsh : params.shadow < params.highlight) :
    (∀ x : ℚ, 0 < x → x < 1 →
      (2 * params.midtone - 1) * x - params.midtone ≠ 0) ∧
    (∀ (data : List Px) (stats : ImageStats),
      ∀ y ∈ apply_stf_f32 data params stats, 0 ≤ y ∧ y ≤ 1) ∧
    (∀ (data : List Px) (stats : ImageStats) (i : ℕ), i < data.length →
      is_valid_pixel (getPx data i) = false →
      (apply_stf_f32 data params stats).getD i 0 = 0) := by
  refine ⟨?_, ?_, ?_⟩
  · intro x hx0 hx1
    exact ne_of_lt (mtf_denom_neg params.midtone x hm0 hm1 hx0 hx1)
  · intro data stats y hy
    unfold apply_stf_f32 at hy
    obtain ⟨v, _, hv⟩ := List.mem_map.mp hy
    by_cases hval : is_valid_pixel v
    · rw [if_pos hval] at hv
      obtain ⟨hc0, hc1⟩ := clampQ_mem
        (((v.getD 0 - stats.min)
            * (1 / qmax (stats.max - stats.min) (1 / 10 ^ 30))
          - params.shadow)
          / qmax (params.highlight - params.shadow) (1 / 10 ^ 15))
        0 1 (by norm_num)
      rw [← hv]
      exact mtf_mem _ params.midtone hm0 hm1
    · rw [if_neg hval] at hv
      rw [← hv]
      norm_num
  · intro data stats i hlen hinv
    unfold apply_stf_f32
    rw [List.getD_eq_getElem _ 0 (by simpa using hlen), List.getElem_map]
    have : getPx data i = data[i] := List.getD_eq_getElem data none hlen
    rw [this] at hinv
    rw [hinv]
    simp

/-- Witness for C10 at `params = {0, 1/4, 1}`, a frame with one valid and
one non-finite pixel, and default stats. -/
theorem apply_stf_f32_total_and_bounded_witness :
    ((2 * (1 / 4 : ℚ) - 1) * (1 / 2) - 1 / 4 ≠ 0) ∧
    (∀ y ∈ apply_stf_f32 [some 1, none] ⟨0, 1 / 4, 1⟩ ImageStats.default,
      0 ≤ y ∧ y ≤ 1) ∧
    (apply_stf_f32 [some 1, none] ⟨0, 1 / 4, 1⟩ ImageStats.default).getD 1 0
      = 0 := by
  obtain ⟨ha, hb, hc⟩ := apply_stf_f32_total_and_bounded ⟨0, 1 / 4, 1⟩
    (by norm_num) (by norm_num) (by norm_num)
  exact ⟨ha (1 / 2) (by norm_num) (by norm_num),
    hb [some 1, none] ImageStats.default,
    hc [some 1, none] ImageStats.default 1 (by simp) rfl⟩

/-! ## Sigma-clipped stacking (`domain/stacking.rs`) -/

/-- The predicate `dev ≤ k·σ` where `σ = √varF`, expressed without a square
root so it stays decidable over `ℚ`: for `dev ≤ 0` it holds iff `k ≥ 0` or
`k²·varF ≤ dev²`; for `dev > 0` iff `k ≥ 0` and `dev² ≤ k²·varF`.  (For
`varF > 0` this is equivalent to the floating comparison of the source;
`devLeSigma (-dev) k varF` likewise expresses `dev ≥ -k·σ`.) -/
def devLeSigma (dev k varF : ℚ) : Prop :=
  (dev ≤ 0 ∧ (0 ≤ k ∨ k ^ 2 * varF ≤ dev ^ 2)) ∨
  (0 < dev ∧ 0 ≤ k ∧ dev ^ 2 ≤ k ^ 2 * varF)

instance (dev k varF : ℚ) : Decidable (devLeSigma dev k varF) := by
  unfold devLeSigma
  infer_instance

/-- Validation of the square-free clip predicate against the real-valued
comparison the source performs: for `varF > 0`,
`devLeSigma dev k varF ↔ dev ≤ k·√varF`. -/
lemma devLeSigma_iff_sqrt (dev k varF : ℚ) (hv : 0 < varF) :
    devLeSigma dev k varF ↔ (dev : ℝ) ≤ (k : ℝ) * Real.sqrt (varF : ℝ) := by
  have hvR : (0 : ℝ) < (varF : ℝ) := by exact_mod_cast hv
  have hs : 0 < Real.sqrt (varF : ℝ) := Real.sqrt_pos.mpr hvR
  have hsq : Real.sqrt (varF : ℝ) ^ 2 = (varF : ℝ) :=
    Real.sq_sqrt (le_of_lt hvR)
  constructor
  · rintro (⟨hd, hk | hsqle⟩ | ⟨hd, hk, hsqle⟩)
    · calc (dev : ℝ) ≤ 0 := by exact_mod_cast hd
        _ ≤ (k : ℝ) * Real.sqrt (varF : ℝ) :=
          mul_nonneg (by exact_mod_cast hk) (le_of_lt hs)
    · by_cases hk' : 0 ≤ k
      · calc (dev : ℝ) ≤ 0 := by exact_mod_cast hd
          _ ≤ (k : ℝ) * Real.sqrt (varF : ℝ) :=
            mul_nonneg (by exact_mod_cast hk') (le_of_lt hs)
      · have hkR : (k : ℝ) < 0 := by
          have : k < 0 := lt_of_not_le hk'
          exact_mod_cast this
        have hdevR : (dev : ℝ) ≤ 0 := by exact_mod_cast hd
        have h1 : ((k : ℝ) * Real.sqrt (varF : ℝ)) ^ 2 ≤ (dev : ℝ) ^ 2 := by
          have : ((k : ℝ) ^ 2 * (varF : ℝ)) ≤ (dev : ℝ) ^ 2 := by
            exact_mod_cast hsqle
          calc ((k : ℝ) * Real.sqrt (varF : ℝ)) ^ 2
              = (k : ℝ) ^ 2 * Real.sqrt (varF : ℝ) ^ 2 := by ring
            _ = (k : ℝ) ^ 2 * (varF : ℝ) := by rw [hsq]
            _ ≤ (dev : ℝ) ^ 2 := this
        have hks : (k : ℝ) * Real.sqrt (varF : ℝ) < 0 :=
          mul_neg_of_neg_of_pos hkR hs
        nlinarith [h1, hks, hdevR]
    · have hdevR : (0 : ℝ) < (dev : ℝ) := by exact_mod_cast hd
      have hkR : (0 : ℝ) ≤ (k : ℝ) := by exact_mod_cast hk
      have h1 : (dev : ℝ) ^ 2 ≤ ((k : ℝ) * Real.sqrt (varF : ℝ)) ^ 2 := by
        have : (dev : ℝ) ^ 2 ≤ (k : ℝ) ^ 2 * (varF : ℝ) := by exact_mod_cast hsqle
        calc (dev : ℝ) ^ 2 ≤ (k : ℝ) ^ 2 * (varF : ℝ) := this
          _ = (k : ℝ) ^ 2 * Real.sqrt (varF : ℝ) ^ 2 := by rw [hsq]
          _ = ((k : ℝ) * Real.sqrt (varF : ℝ)) ^ 2 := by ring
      have hks : (0 : ℝ) ≤ (k : ℝ) * Real.sqrt (varF : ℝ) :=
        mul_nonneg hkR (le_of_lt hs)
      nlinarith [h1, hks, hdevR]
  · intro h
    by_cases hd : dev ≤ 0
    · by_cases hk : 0 ≤ k
      · exact Or.inl ⟨hd, Or.inl hk⟩
      · refine Or.inl ⟨hd, Or.inr ?_⟩
        have hkR : (k : ℝ) < 0 := by
          have : k < 0 := lt_of_not_le hk
          exact_mod_cast this
        have h2 : ((k : ℝ) * Real.sqrt (varF : ℝ)) ^ 2 ≤ (dev : ℝ) ^ 2 := by
          have hks : (k : ℝ) * Real.sqrt (varF : ℝ) < 0 :=
            mul_neg_of_neg_of_pos hkR hs
          have hdevR : (dev : ℝ) ≤ 0 := by exact_mod_cast hd
          nlinarith [h, hks, hdevR]
        have : (k : ℝ) ^ 2 * (varF : ℝ) ≤ (dev : ℝ) ^ 2 := by
          calc (k : ℝ) ^ 2 * (varF : ℝ)
              = (k : ℝ) ^ 2 * Real.sqrt (varF : ℝ) ^ 2 := by rw [hsq]
            _ = ((k : ℝ) * Real.sqrt (varF : ℝ)) ^ 2 := by ring
            _ ≤ (dev : ℝ) ^ 2 := h2
        exact_mod_cast this
    · have hd' : 0 < dev := lt_of_not_le hd
      have hdevR : (0 : ℝ) < (dev : ℝ) := by exact_mod_cast hd'
      have hk : 0 ≤ k := by
        by_contra hk'
        have hkR : (k : ℝ) < 0 := by
          have : k < 0 := lt_of_not_le hk'
          exact_mod_cast this
        have : (k : ℝ) * Real.sqrt (varF : ℝ) < 0 :=
          mul_neg_of_neg_of_pos hkR hs
        linarith
      refine Or.inr ⟨hd', hk, ?_⟩
      have h2 : (dev : ℝ) ^ 2 ≤ ((k : ℝ) * Real.sqrt (varF : ℝ)) ^ 2 := by
        have hks : (0 : ℝ) ≤ (k : ℝ) * Real.sqrt (varF : ℝ) :=
          mul_nonneg (by exact_mod_cast hk) (le_of_lt hs)
        nlinarith [h, hks, hdevR]
      have : (dev : ℝ) ^ 2 ≤ (k : ℝ) ^ 2 * (varF : ℝ) := by
        calc (dev : ℝ) ^ 2 ≤ ((k : ℝ) * Real.sqrt (varF : ℝ)) ^ 2 := h2
          _ = (k : ℝ) ^ 2 * Real.sqrt (varF : ℝ) ^ 2 := by ring
          _ = (k : ℝ) ^ 2 * (varF : ℝ) := by rw [hsq]
      exact_mod_cast this

/-- One `retain` pass of the clip loop (stacking.rs:80-84): keep `v` iff
`dev ≥ -sigma_low·σ ∧ dev ≤ sigma_high·σ`, with `σ² = varF`. -/
def clipKeep (mean sigma_low sigma_high varF v : ℚ) : Bool :=
  decide (devLeSigma (-(v - mean)) sigma_low varF) &&
  decide (devLeSigma (v - mean) sigma_high varF)

/-- The iteration loop of `sigma_clip_combine` (stacking.rs:61-92), with
explicit fuel `max_iter`.  Per round: mean, unbiased `n-1` variance
(denominator `max(n-1, 1)`), `σ = max(√variance, 1e-10)` — squared to
`varF = max(variance, 1e-20)` — then retain; stop early when the round
removes nothing or fewer than two values remain. -/
def clipLoop (sigma_low sigma_high : ℚ) :
    ℕ → List ℚ → ℕ → (List ℚ × ℕ)
  | 0, active, rejected => (active, rejected)
  | fuel + 1, active, rejected =>
    if active.length < 2 then (active, rejected)
    else
      let n : ℚ := (active.length : ℚ)
      let mean := listSum active / n
      let variance :=
        listSum (active.map fun v => (v - mean) ^ 2) / qmax (n - 1) 1
      let varF := qmax variance (1 / 10 ^ 20)
      let kept := active.filter (clipKeep mean sigma_low sigma_high varF)
      let removed := active.length - kept.length
      if removed = 0 then (kept, rejected)
      else clipLoop sigma_low sigma_high fuel kept (rejected + removed)

/-- `sigma_clip_combine` (stacking.rs:45-101). -/
def sigma_clip_combine (values : List ℚ)
    (sigma_low sigma_high : ℚ) (max_iter : ℕ) : ℚ × ℕ :=
  match values with
  | [] => (0, 0)
  | [v] => (v, 0)
  | _ =>
    let r := clipLoop sigma_low sigma_high max_iter values 0
    if r.1.isEmpty then (listSum values / (values.length : ℚ), r.2)
    else (listSum r.1 / (r.1.length : ℚ), r.2)

/-- C4's failing input, evaluated: on `[10.0, 10.1, 9.9, 10.0, 500.0]` with
`κ = (3,3)` and 5 iterations the first round has mean `108` and unbiased
standard deviation `≈ 219.1`, so the outlier's deviation `392` lies inside
`3σ ≈ 657.4`: nothing is ever rejected and the returned mean is `108` —
contradicting both the claim (mean ∈ [9.8, 10.3], ≥ 1 rejection) and the
source's own test `test_sigma_clip_with_outlier`. -/
theorem sigma_clip_combine_outlier_kept :
    sigma_clip_combine [10, 101 / 10, 99 / 10, 10, 500] 3 3 5 = (108, 0) ∧
    ¬((98 : ℚ) / 10 ≤ 108 ∧ (108 : ℚ) ≤ 103 / 10) := by
  constructor
  · have hmean : listSum [(10 : ℚ), 101 / 10, 99 / 10, 10, 500] / (5 : ℚ)
        = 108 := by
      norm_num [listSum]
    have hfilter :
        [(10 : ℚ), 101 / 10, 99 / 10, 10, 500].filter
          (clipKeep 108 3 3 (9604001 / 200)) =
        [(10 : ℚ), 101 / 10, 99 / 10, 10, 500] := by
      simp only [List.filter, clipKeep, devLeSigma]
      norm_num
    simp only [sigma_clip_combine, clipLoop]
    norm_num [listSum, qmax, hfilter]
  · norm_num

/-- `shift_image` (stacking.rs:172-191): `out[y,x] = in[y-dy, x-dx]`,
out-of-range positions filled with NaN; row-major over a `rows × cols`
frame. -/
def shift_image (rows cols : ℕ) (image : List Px) (dy dx : ℤ) : List Px :=
  (List.range (rows * cols)).map fun (i : ℕ) =>
    let y : ℕ := i / cols
    let x : ℕ := i % cols
    let sy : ℤ := (y : ℤ) - dy
    let sx : ℤ := (x : ℤ) - dx
    if 0 ≤ sy ∧ sy < (rows : ℤ) ∧ 0 ≤ sx ∧ sx < (cols : ℤ) then
      getPx image (sy.toNat * cols + sx.toNat)
    else none

/-- The centered correlation window of `compute_offset`
(stacking.rs:112-119): `(y_start, y_end, x_start, x_end)`. -/
def offsetRegion (rows cols : ℕ) : ℕ × ℕ × ℕ × ℕ :=
  let cy := rows / 2
  let cx := cols / 2
  let region := (Nat.min (Nat.min rows cols) 256) / 2
  (cy - region, Nat.min (cy + region) rows, cx - region, Nat.min (cx + region) cols)

/-- The correlation sums of one `(dy, dx)` candidate of `compute_offset`
(stacking.rs:127-151): `(sum_prod, sum_r2, sum_t2, count)` over the window,
skipping out-of-range target rows/columns and non-finite pixel pairs. -/
def offsetSums (rows cols : ℕ) (reference target : List Px) (dy dx : ℤ) :
    ℚ × ℚ × ℚ × ℕ :=
  (List.range' (offsetRegion rows cols).1
    ((offsetRegion rows cols).2.1 - (offsetRegion rows cols).1)).foldl
    (fun (acc : ℚ × ℚ × ℚ × ℕ) (y : ℕ) =>
      let ty : ℤ := (y : ℤ) + dy
      if 0 ≤ ty ∧ ty < (rows : ℤ) then
        (List.range' (offsetRegion rows cols).2.2.1
          ((offsetRegion rows cols).2.2.2
            - (offsetRegion rows cols).2.2.1)).foldl
          (fun (acc : ℚ × ℚ × ℚ × ℕ) (x : ℕ) =>
            let tx : ℤ := (x : ℤ) + dx
            if 0 ≤ tx ∧ tx < (cols : ℤ) then
              match getPx reference (y * cols + x),
                  getPx target (ty.toNat * cols + tx.toNat) with
              | some r, some t =>
                (acc.1 + r * t, acc.2.1 + r * r, acc.2.2.1 + t * t,
                  acc.2.2.2 + 1)
              | _, _ => acc
            else acc)
          acc
      else acc)
    (0, 0, 0, 0)

/-- The candidate's score (stacking.rs:153-159): considered only when
`count > 0`; `sum_prod / √(sum_r2·sum_t2)` when the denominator exceeds
`1e-10`, else `0`.  `none` models "no score computed". -/
noncomputable def scoreOfSums (s : ℚ × ℚ × ℚ × ℕ) : Option ℝ :=
  if s.2.2.2 = 0 then none
  else
    some
      (if Real.sqrt ((s.2.1 * s.2.2.1 : ℚ) : ℝ) > 1 / 10 ^ 10 then
        ((s.1 : ℚ) : ℝ) / Real.sqrt ((s.2.1 * s.2.2.1 : ℚ) : ℝ)
      else 0)

/-- The score of one candidate shift. -/
noncomputable def offsetScoreAt (rows cols : ℕ) (reference target : List Px)
    (dy dx : ℤ) : Option ℝ :=
  scoreOfSums (offsetSums rows cols reference target dy dx)

/-- The candidate grid of `compute_offset` (stacking.rs:125-126), in loop
order: `dy` from `-R` to `R` outer, `dx` inner. -/
def offsetCandidates (R : ℕ) : List (ℤ × ℤ) :=
  (List.range (2 * R + 1)).flatMap fun i =>
    (List.range (2 * R + 1)).map fun j => ((i : ℤ) - R, (j : ℤ) - R)

/-- One step of the running-best selection (stacking.rs:160-164): a
candidate with no score leaves the state alone; otherwise it replaces the
best on a strictly greater score (`none` plays `f64::MIN`, below every
computed score). -/
noncomputable def selectStep (sc : ℤ × ℤ → Option ℝ) (st : Option ℝ × ℤ × ℤ)
    (c : ℤ × ℤ) : Option ℝ × ℤ × ℤ :=
  match sc c with
  | none => st
  | some s =>
    match st.1 with
    | none => (some s, c.1, c.2)
    | some b => if b < s then (some s, c.1, c.2) else st

/-- The full candidate scan, starting from `(f64::MIN, 0, 0)`. -/
noncomputable def selectBest (sc : ℤ × ℤ → Option ℝ) (cands : List (ℤ × ℤ)) :
    Option ℝ × ℤ × ℤ :=
  cands.foldl (selectStep sc) (none, 0, 0)

/-- `compute_offset` (stacking.rs:103-170).  Both frames carry the shared
`rows × cols` shape of the embedding, so the source's early dimension
mismatch exit cannot fire and is omitted. -/
noncomputable def compute_offset (rows cols : ℕ) (reference target : List Px)
    (search_radius : ℕ) : ℤ × ℤ :=
  (selectBest
    (fun c => offsetScoreAt rows cols reference target c.1 c.2)
    (offsetCandidates search_radius)).2

lemma foldl_eq_init {α β : Type} (f : α → β → α) (l : List β) (init : α)
    (h : ∀ a : α, ∀ b ∈ l, f a b = a) : l.foldl f init = init := by
  induction l generalizing init with
  | nil => rfl
  | cons b bs ih =>
    rw [List.foldl_cons, h init b (List.mem_cons_self b bs)]
    exact ih init (fun a b' hb' => h a b' (List.mem_cons_of_mem b hb'))

lemma offsetSums_allNone (dy dx : ℤ) :
    offsetSums 2 2 [none, none, none, none] [none, none, none, none] dy dx
      = (0, 0, 0, 0) := by
  simp [offsetSums, offsetRegion, List.range', getPx]

lemma scoreOfSums_zero : scoreOfSums (0, 0, 0, 0) = none := by
  simp [scoreOfSums]

/-- Counterexample to C6 as stated: on the 2×2 all-NaN frame, shifting by
`(1,1)` returns the same all-NaN frame, every candidate of the default
`R = 50` search has zero finite pixel pairs, so no score is ever computed
and `compute_offset` returns the initial `(0, 0)` instead of `(1, 1)`. -/
theorem compute_offset_shift_counterexample :
    shift_image 2 2 [none, none, none, none] 1 1 = [none, none, none, none] ∧
    compute_offset 2 2 [none, none, none, none]
      (shift_image 2 2 [none, none, none, none] 1 1) 50 = (0, 0) ∧
    ((0 : ℤ), (0 : ℤ)) ≠ ((1 : ℤ), (1 : ℤ)) := by
  have hshift : shift_image 2 2 [none, none, none, none] 1 1
      = [none, none, none, none] := by decide
  refine ⟨hshift, ?_, by decide⟩
  rw [hshift]
  unfold compute_offset selectBest
  rw [foldl_eq_init]
  intro st c _
  simp only [selectStep, offsetScoreAt, offsetSums_allNone, scoreOfSums_zero]

lemma selectBest_keep (sc : ℤ × ℤ → Option ℝ) (L : List (ℤ × ℤ))
    (p : ℤ × ℤ) (s₀ : ℝ)
    (hub : ∀ c ∈ L, ∀ s : ℝ, sc c = some s → s ≤ s₀) :
    L.foldl (selectStep sc) (some s₀, p.1, p.2) = (some s₀, p.1, p.2) := by
  induction L with
  | nil => rfl
  | cons c L ih =>
    have hstep : selectStep sc (some s₀, p.1, p.2) c = (some s₀, p.1, p.2) := by
      unfold selectStep
      cases hsc : sc c with
      | none => rfl
      | some s =>
        have : s ≤ s₀ := hub c (List.mem_cons_self c L) s hsc
        simp [not_lt.mpr this]
    rw [List.foldl_cons, hstep]
    exact ih (fun c' hc' s hs => hub c' (List.mem_cons_of_mem c hc') s hs)

lemma selectBest_dominant_aux (sc : ℤ × ℤ → Option ℝ) (e : ℤ × ℤ) (s₀ : ℝ)
    (he : sc e = some s₀) :
    ∀ (L : List (ℤ × ℤ)) (st : Option ℝ × ℤ × ℤ),
      (st.1 = none ∨ ∃ s : ℝ, st.1 = some s ∧ s < s₀) → e ∈ L →
      (∀ c ∈ L, c ≠ e → ∀ s : ℝ, sc c = some s → s < s₀) →
      L.foldl (selectStep sc) st = (some s₀, e.1, e.2) := by
  intro L
  induction L with
  | nil => intro st _ hmem _; simp at hmem
  | cons c L ih =>
    intro st hst hmem hdom
    by_cases hc : c = e
    · subst hc
      have hstep : selectStep sc st c = (some s₀, c.1, c.2) := by
        unfold selectStep
        rw [he]
        rcases hst with h1 | ⟨s, h1, hlt⟩
        · obtain ⟨a, b⟩ := st
          simp only at h1
          subst h1
          rfl
        · obtain ⟨a, b⟩ := st
          simp only at h1
          subst h1
          simp [hlt]
      rw [List.foldl_cons, hstep]
      exact selectBest_keep sc L c s₀ (by
        intro c' hc' s hs
        by_cases hce : c' = c
        · subst hce
          rw [he] at hs
          exact le_of_eq (Option.some_injective ℝ hs).symm
        · exact le_of_lt (hdom c' (List.mem_cons_of_mem c hc') hce s hs))
    · have hmem' : e ∈ L := by
        rcases List.mem_cons.mp hmem with h | h
        · exact absurd h.symm hc
        · exact h
      have hdom' : ∀ c' ∈ L, c' ≠ e → ∀ s : ℝ, sc c' = some s → s < s₀ :=
        fun c' hc' => hdom c' (List.mem_cons_of_mem c hc')
      have hinv : ((selectStep sc st c).1 = none ∨
          ∃ s : ℝ, (selectStep sc st c).1 = some s ∧ s < s₀) := by
        unfold selectStep
        cases hsc : sc c with
        | none => exact hst
        | some s =>
          have hs : s < s₀ := hdom c (List.mem_cons_self c L) hc s hsc
          rcases hst with h1 | ⟨b, h1, hb⟩
          · rw [h1]
            exact Or.inr ⟨s, rfl, hs⟩
          · rw [h1]
            by_cases hbs : b < s
            · simp only [if_pos hbs]
              exact Or.inr ⟨s, rfl, hs⟩
            · simp only [if_neg hbs]
              exact Or.inr ⟨b, h1 ▸ rfl, hb⟩
      rw [List.foldl_cons]
      exact ih (selectStep sc st c) hinv hmem' hdom'

/-- C6 (amended): the integer grid search returns the applied shift whenever
that shift's correlation score exists and strictly dominates the score of
every other candidate in the search grid.  (As originally stated the claim
fails on degenerate frames: on an all-NaN frame no candidate ever scores
and `(0,0)` is returned regardless of the applied shift.) -/
theorem compute_offset_recovers_dominant_shift
    (rows cols R : ℕ) (F : List Px) (dy dx : ℤ) (s₀ : ℝ)
    (hmem : (dy, dx) ∈ offsetCandidates R)
    (hsc : offsetScoreAt rows cols F (shift_image rows cols F dy dx) dy dx
      = some s₀)
    (hdom : ∀ c ∈ offsetCandidates R, c ≠ (dy, dx) → ∀ s : ℝ,
      offsetScoreAt rows cols F (shift_image rows cols F dy dx) c.1 c.2
        = some s → s < s₀) :
    compute_offset rows cols F (shift_image rows cols F dy dx) R
      = (dy, dx) := by
  unfold compute_offset selectBest
  rw [selectBest_dominant_aux
    (fun c => offsetScoreAt rows cols F (shift_image rows cols F dy dx) c.1 c.2)
    (dy, dx) s₀ hsc (offsetCandidates R) (none, 0, 0) (Or.inl rfl) hmem hdom]

/-- Witness for C6's amended statement: with `R = 0` the grid is the single
candidate `(0,0)`; on the frame `[[1,2],[3,4]]` the unshifted correlation
has sums `(30, 30, 30, 4)` and score `30/√900 = 1`, which (vacuously)
dominates every other candidate, so the zero shift is recovered. -/
theorem compute_offset_recovers_dominant_shift_witness :
    compute_offset 2 2 [some 1, some 2, some 3, some 4]
      (shift_image 2 2 [some 1, some 2, some 3, some 4] 0 0) 0 = (0, 0) := by
  have hshift : shift_image 2 2 [some 1, some 2, some 3, some 4] 0 0
      = [some 1, some 2, some 3, some 4] := by decide
  have hsums : offsetSums 2 2 [some 1, some 2, some 3, some 4]
      (shift_image 2 2 [some 1, some 2, some 3, some 4] 0 0) 0 0
      = (30, 30, 30, 4) := by
    rw [hshift]
    norm_num [offsetSums, offsetRegion, List.range', getPx]
  have hsc : offsetScoreAt 2 2 [some 1, some 2, some 3, some 4]
      (shift_image 2 2 [some 1, some 2, some 3, some 4] 0 0) 0 0
      = some 1 := by
    unfold offsetScoreAt
    rw [hsums]
    unfold scoreOfSums
    have h900 : Real.sqrt (((30 * 30 : ℚ) : ℝ)) = 30 := by
      push_cast
      rw [show (30 * 30 : ℝ) = 30 ^ 2 by norm_num,
        Real.sqrt_sq (by norm_num : (0 : ℝ) ≤ 30)]
    simp only [h900]
    norm_num
  have hcands : offsetCandidates 0 = [(0, 0)] := by decide
  refine compute_offset_recovers_dominant_shift 2 2 0 _ 0 0 1 ?_ hsc ?_
  · rw [hcands]; exact List.mem_singleton.mpr rfl
  · intro c hc hne s hs
    rw [hcands] at hc
    exact absurd (List.mem_singleton.mp hc) hne

/-! ## Lazy cube collapse (`domain/lazy_cube.rs`) -/

/-- One frame's pass of `collapse_mean_lazy` (lazy_cube.rs:256-266): for
every pixel slot `i`, add the frame's pixel to `sum[i]` and bump `count[i]`
when it passes `is_valid_pixel`; the `(sum, count)` vectors are fused into
one list of pairs. -/
def collapseStep (npix : ℕ) (state : List (ℚ × ℕ)) (frame : List Px) :
    List (ℚ × ℕ) :=
  List.zipWith
    (fun (p : ℚ × ℕ) (i : ℕ) =>
      if is_valid_pixel (getPx frame i) then
        (p.1 + (getPx frame i).getD 0, p.2 + 1)
      else p)
    state (List.range npix)

/-- `LazyCube::collapse_mean_lazy` (lazy_cube.rs:248-276): the cube is its
sequence of decoded `rows × cols` frames (`get_frame(z)` for each `z`);
finalization divides `sum/count`, or yields `0` where the count is zero. -/
def collapse_mean_lazy (rows cols : ℕ) (frames : List (List Px)) : List ℚ :=
  (frames.foldl (collapseStep (rows * cols))
    (List.replicate (rows * cols) (0, 0))).map
    fun p => if 0 < p.2 then p.1 / (p.2 : ℚ) else 0

/-- The pixel-`i` values across the cube's depth that pass
`is_valid_pixel`. -/
def validsAt (frames : List (List Px)) (i : ℕ) : List ℚ :=
  validVals (frames.map fun f => getPx f i)

/-- The original claim's per-pixel collapse rule, written from the spec's
words: the mean over `z` of exactly those values that are *finite and
nonzero*, `0` when none qualifies. -/
def specNonzeroMeanAt (frames : List (List Px)) (i : ℕ) : ℚ :=
  let vs := ((frames.map fun f => getPx f i).filterMap fun v => v).filter
    fun q => decide (q ≠ 0)
  if vs.length ≠ 0 then listSum vs / (vs.length : ℚ) else 0

lemma getD_zipWith {α β γ : Type} (f : α → β → γ) (xs : List α) (ys : List β)
    (i : ℕ) (da : α) (db : β) (dc : γ)
    (hx : i < xs.length) (hy : i < ys.length) :
    (List.zipWith f xs ys).getD i dc = f (xs.getD i da) (ys.getD i db) := by
  induction xs generalizing ys i with
  | nil => simp at hx
  | cons x xs ih =>
    cases ys with
    | nil => simp at hy
    | cons y ys =>
      cases i with
      | zero => simp
      | succ n =>
        simp only [List.zipWith_cons_cons, List.getD_cons_succ]
        exact ih ys n (by simpa using hx) (by simpa using hy)

lemma foldl_add_shift (xs : List ℚ) (a : ℚ) :
    xs.foldl (· + ·) a = a + xs.foldl (· + ·) 0 := by
  induction xs generalizing a with
  | nil => simp
  | cons x xs ih =>
    simp only [List.foldl_cons]
    rw [ih (a + x), ih (0 + x)]
    ring

lemma listSum_cons (x : ℚ) (xs : List ℚ) :
    listSum (x :: xs) = x + listSum xs := by
  simp only [listSum, List.foldl_cons]
  rw [foldl_add_shift xs (0 + x)]
  ring

lemma validVals_cons (p : Px) (l : List Px) :
    validVals (p :: l) =
      if is_valid_pixel p then p.getD 0 :: validVals l else validVals l := by
  cases p with
  | none => simp [validVals, is_valid_pixel]
  | some q =>
    by_cases hv : is_valid_pixel (some q)
    · simp [validVals, hv]
    · simp [validVals, hv]

lemma collapseStep_length (npix : ℕ) (state : List (ℚ × ℕ)) (frame : List Px) :
    (collapseStep npix state frame).length = Nat.min state.length npix := by
  simp [collapseStep]

lemma collapse_fold_getD (npix : ℕ) (frames : List (List Px)) :
    ∀ (state : List (ℚ × ℕ)), state.length = npix → ∀ i, i < npix →
      (frames.foldl (collapseStep npix) state).getD i (0, 0)
        = ((state.getD i (0, 0)).1 + listSum (validsAt frames i),
           (state.getD i (0, 0)).2 + (validsAt frames i).length) := by
  induction frames with
  | nil =>
    intro state _ i _
    simp [validsAt, validVals, listSum]
  | cons f fs ih =>
    intro state hlen i hi
    rw [List.foldl_cons]
    have hlen' : (collapseStep npix state f).length = npix := by
      rw [collapseStep_length, hlen]
      exact Nat.min_self npix
    rw [ih _ hlen' i hi]
    have hstep : (collapseStep npix state f).getD i (0, 0)
        = if is_valid_pixel (getPx f i) then
            ((state.getD i (0, 0)).1 + (getPx f i).getD 0,
              (state.getD i (0, 0)).2 + 1)
          else state.getD i (0, 0) := by
      unfold collapseStep
      rw [getD_zipWith _ _ _ i (0, 0) 0 (0, 0) (hlen ▸ hi) (by simpa using hi)]
      rw [List.getD_eq_getElem _ _ (by simpa using hi), List.getElem_range]
    rw [hstep]
    have hvAt : validsAt (f :: fs) i =
        if is_valid_pixel (getPx f i) then
          (getPx f i).getD 0 :: validsAt fs i
        else validsAt fs i := by
      unfold validsAt
      rw [List.map_cons, validVals_cons]
    by_cases hv : is_valid_pixel (getPx f i)
    · rw [if_pos hv, hvAt, if_pos hv]
      rw [listSum_cons]
      simp only [List.length_cons, Prod.mk.injEq]
      constructor
      · ring
      · omega
    · rw [if_neg hv, hvAt, if_neg hv]

lemma collapse_foldl_length (npix : ℕ) (frames : List (List Px)) :
    ∀ state : List (ℚ × ℕ), state.length = npix →
      (frames.foldl (collapseStep npix) state).length = npix := by
  induction frames with
  | nil => intro s h; exact h
  | cons f fs ih =>
    intro s h
    rw [List.foldl_cons]
    exact ih _ (by rw [collapseStep_length, h]; exact Nat.min_self npix)

/-- C5 (amended): the lazy collapse-mean produces at each pixel the mean
over `z` of exactly those values passing `is_valid_pixel` — *finite and
greater than the padding threshold `1e-7`*, not merely finite and nonzero
as originally claimed — and `0` when no value at that pixel qualifies. -/
theorem collapse_mean_lazy_pointwise (rows cols : ℕ)
    (frames : List (List Px)) (i : ℕ) (hi : i < rows * cols) :
    (collapse_mean_lazy rows cols frames).getD i 0 =
      if (validsAt frames i).length ≠ 0 then
        listSum (validsAt frames i) / ((validsAt frames i).length : ℚ)
      else 0 := by
  unfold collapse_mean_lazy
  have hlen0 : (List.replicate (rows * cols) ((0 : ℚ), (0 : ℕ))).length
      = rows * cols := List.length_replicate _ _
  have hfl : (frames.foldl (collapseStep (rows * cols))
      (List.replicate (rows * cols) (0, 0))).length = rows * cols :=
    collapse_foldl_length (rows * cols) frames _ hlen0
  rw [List.getD_eq_getElem _ 0 (by rw [List.length_map, hfl]; exact hi),
    List.getElem_map]
  have hfold := collapse_fold_getD (rows * cols) frames _ hlen0 i hi
  rw [List.getD_eq_getElem _ (0, 0) (by rw [hfl]; exact hi)] at hfold
  rw [hfold]
  have hinit : (List.replicate (rows * cols) ((0 : ℚ), (0 : ℕ))).getD i (0, 0)
      = (0, 0) := by
    rw [List.getD_eq_getElem _ (0, 0) (by simpa using hi)]
    simp
  rw [hinit]
  simp only [zero_add]
  by_cases hlen : (validsAt frames i).length = 0
  · simp [hlen]
  · rw [if_pos (Nat.pos_of_ne_zero hlen), if_pos hlen]

/-- Witness for C5's amended statement on a 1×1 cube of depth 3 with values
`[1, 3, NaN]`. -/
theorem collapse_mean_lazy_pointwise_witness :
    (collapse_mean_lazy 1 1 [[some 1], [some 3], [none]]).getD 0 0 =
      if (validsAt [[some 1], [some 3], [none]] 0).length ≠ 0 then
        listSum (validsAt [[some 1], [some 3], [none]] 0) /
          ((validsAt [[some 1], [some 3], [none]] 0).length : ℚ)
      else 0 :=
  collapse_mean_lazy_pointwise 1 1 _ 0 (by norm_num)

/-- Counterexample to C5 as stated: at a pixel whose only value across `z`
is `-5` — finite and nonzero, so the claim's rule averages it to `-5` —
the lazy collapse yields `0`, because `collapse_mean_lazy` validates with
`is_valid_pixel` (`v > 1e-7`), which rejects every negative value. -/
theorem collapse_mean_lazy_validity_counterexample :
    (collapse_mean_lazy 1 1 [[some (-5)]]).getD 0 0 = 0 ∧
    specNonzeroMeanAt [[some (-5)]] 0 = -5 ∧
    ((0 : ℚ) ≠ -5) := by
  refine ⟨?_, ?_, by norm_num⟩
  · have hv : is_valid_pixel (getPx [some (-5)] 0) = false := by
      simp only [getPx, List.getD, is_valid_pixel, decide_eq_false_iff_not,
        not_lt, PADDING_THRESHOLD]
      norm_num
    simp [collapse_mean_lazy, collapseStep, hv]
  · have h1 : List.filterMap (fun v => v) [some (-5 : ℚ)] = [-5] := by simp
    have h2 : List.filter (fun q => decide (q ≠ (0 : ℚ))) [(-5 : ℚ)] = [-5] := by
      have : decide ((-5 : ℚ) ≠ 0) = true := by norm_num
      simp [List.filter, this]
    norm_num [specNonzeroMeanAt, getPx, h1, h2, listSum, List.foldl_cons,
      List.foldl_nil]

/-! ## LRU frame cache (`domain/lazy_cube.rs`) -/

/-- `CacheEntry` (lazy_cube.rs:27-30). -/
structure CacheEntry (α : Type) where
  frame : α
  last_access : ℕ

/-- `LruFrameCache` (lazy_cube.rs:32-36); the `HashMap` is modelled as an
association list whose order models the map's iteration order. -/
structure LruFrameCache (α : Type) where
  entries : List (ℕ × CacheEntry α)
  max_entries : ℕ
  access_counter : ℕ

/-- `LruFrameCache::new` (lazy_cube.rs:39-45). -/
def LruFrameCache.new (α : Type) (max_entries : ℕ) : LruFrameCache α :=
  ⟨[], max_entries, 0⟩

/-- `entries.contains_key(&k)`. -/
def containsKey {α : Type} (l : List (ℕ × CacheEntry α)) (k : ℕ) : Bool :=
  l.any fun e => e.1 == k

/-- `LruFrameCache::get` (lazy_cube.rs:47-55): on a hit, bump the counter,
refresh the entry's `last_access` and return a clone of the frame. -/
def LruFrameCache.get {α : Type} (c : LruFrameCache α) (k : ℕ) :
    Option α × LruFrameCache α :=
  if containsKey c.entries k then
    ((c.entries.find? fun e => e.1 == k).map fun e => e.2.frame,
      ⟨c.entries.map fun e =>
          if e.1 = k then (e.1, ⟨e.2.frame, c.access_counter + 1⟩) else e,
        c.max_entries, c.access_counter + 1⟩)
  else (none, c)

/-- `entries.iter().min_by_key(|(_, entry)| entry.last_access)`
(lazy_cube.rs:59-63): the first entry in iteration order attaining the
minimal `last_access`. -/
def minAccess {α : Type} (l : List (ℕ × CacheEntry α)) :
    Option (ℕ × CacheEntry α) :=
  l.foldl
    (fun best e =>
      match best with
      | none => some e
      | some b => if e.2.last_access < b.2.last_access then some e else best)
    none

/-- `LruFrameCache::insert` (lazy_cube.rs:57-75): evict the least-recent
entry when at capacity and inserting a fresh key, then bump the counter and
store (a `HashMap::insert` replaces any existing entry for the key). -/
def LruFrameCache.insert {α : Type} (c : LruFrameCache α) (k : ℕ) (f : α) :
    LruFrameCache α :=
  let entries1 :=
    if c.max_entries ≤ c.entries.length ∧ ¬ containsKey c.entries k then
      match minAccess c.entries with
      | some m => c.entries.eraseP fun e => e.1 == m.1
      | none => c.entries
    else c.entries
  ⟨(k, ⟨f, c.access_counter + 1⟩) :: entries1.eraseP fun e => e.1 == k,
    c.max_entries, c.access_counter + 1⟩

/-- A `get` or `insert` call on the cache. -/
inductive CacheOp (α : Type) where
  | get (k : ℕ)
  | insert (k : ℕ) (f : α)

/-- Apply one operation. -/
def applyOp {α : Type} (c : LruFrameCache α) : CacheOp α → LruFrameCache α
  | .get k => (c.get k).2
  | .insert k f => c.insert k f

/-- The cache after a sequence of operations from a fresh cache of the given
capacity. -/
def runOps (α : Type) (cap : ℕ) (ops : List (CacheOp α)) : LruFrameCache α :=
  ops.foldl applyOp (LruFrameCache.new α cap)

/-- Counterexample to C9 as stated for capacity 0: a single insertion into a
zero-capacity cache stores one entry, exceeding the configured capacity
(the eviction branch finds nothing to evict in the empty map and the
insertion proceeds regardless). -/
theorem lru_capacity_zero_counterexample :
    ¬ ((runOps ℕ 0 [CacheOp.insert 0 42]).entries.length ≤ 0) := by decide

lemma minAccess_aux {α : Type} :
    ∀ (l : List (ℕ × CacheEntry α)) (b : ℕ × CacheEntry α),
      ∃ m, l.foldl
          (fun best e =>
            match best with
            | none => some e
            | some b => if e.2.last_access < b.2.last_access then some e
                else best)
          (some b) = some m ∧
        (m = b ∨ m ∈ l) ∧ m.2.last_access ≤ b.2.last_access ∧
        ∀ e ∈ l, m.2.last_access ≤ e.2.last_access := by
  intro l
  induction l with
  | nil => intro b; exact ⟨b, rfl, Or.inl rfl, le_refl _, by simp⟩
  | cons e l ih =>
    intro b
    by_cases h : e.2.last_access < b.2.last_access
    · obtain ⟨m, hm, hmem, hle, hall⟩ := ih e
      refine ⟨m, ?_, ?_, ?_, ?_⟩
      · simpa [List.foldl_cons, h] using hm
      · rcases hmem with rfl | hmem
        · exact Or.inr (List.mem_cons_self _ _)
        · exact Or.inr (List.mem_cons_of_mem _ hmem)
      · exact le_trans hle (le_of_lt h)
      · intro e' he'
        rcases List.mem_cons.mp he' with rfl | he'
        · exact hle
        · exact hall e' he'
    · obtain ⟨m, hm, hmem, hle, hall⟩ := ih b
      refine ⟨m, ?_, ?_, hle, ?_⟩
      · simpa [List.foldl_cons, h] using hm
      · rcases hmem with rfl | hmem
        · exact Or.inl rfl
        · exact Or.inr (List.mem_cons_of_mem _ hmem)
      · intro e' he'
        rcases List.mem_cons.mp he' with rfl | he'
        · exact le_trans hle (not_lt.mp h)
        · exact hall e' he'

lemma minAccess_spec {α : Type} (l : List (ℕ × CacheEntry α))
    (m : ℕ × CacheEntry α) (h : minAccess l = some m) :
    m ∈ l ∧ ∀ e ∈ l, m.2.last_access ≤ e.2.last_access := by
  cases l with
  | nil => simp [minAccess] at h
  | cons e l =>
    obtain ⟨m', hm', hmem, hle, hall⟩ := minAccess_aux l e
    rw [minAccess, List.foldl_cons] at h
    simp only at h
    rw [hm'] at h
    obtain rfl : m' = m := Option.some_injective _ h
    constructor
    · rcases hmem with h1 | h1
      · rw [h1]; exact List.mem_cons_self _ _
      · exact List.mem_cons_of_mem _ h1
    · intro e' he'
      rcases List.mem_cons.mp he' with h2 | h2
      · rw [h2]; exact hle
      · exact hall e' h2

/-- The reachable-state invariant of the cache: capacity bound (with the
degenerate `max 1` for capacity 0), distinct keys, distinct access stamps,
stamps bounded by the counter. -/
def CacheInv {α : Type} (cap : ℕ) (c : LruFrameCache α) : Prop :=
  c.max_entries = cap ∧
  c.entries.length ≤ Nat.max cap 1 ∧
  (c.entries.map Prod.fst).Nodup ∧
  (c.entries.map fun e => e.2.last_access).Nodup ∧
  ∀ e ∈ c.entries, e.2.last_access ≤ c.access_counter

lemma containsKey_iff {α : Type} (l : List (ℕ × CacheEntry α)) (k : ℕ) :
    containsKey l k = true ↔ ∃ e ∈ l, e.1 = k := by
  unfold containsKey
  rw [List.any_eq_true]
  constructor
  · rintro ⟨e, he, hp⟩
    exact ⟨e, he, by simpa using hp⟩
  · rintro ⟨e, he, hp⟩
    exact ⟨e, he, by simpa using hp⟩

lemma key_not_mem_eraseP {α : Type} (l : List (ℕ × CacheEntry α)) (k : ℕ)
    (hnd : (l.map Prod.fst).Nodup) :
    k ∉ ((l.eraseP fun e => e.1 == k).map Prod.fst) := by
  induction l with
  | nil => simp
  | cons a l ih =>
    simp only [List.map_cons, List.nodup_cons] at hnd
    obtain ⟨h1, h2⟩ := hnd
    by_cases hak : a.1 = k
    · have hpa : (a.1 == k) = true := by simpa using hak
      rw [List.eraseP_cons, hpa, cond_true]
      intro hmem
      obtain ⟨e, he, hek⟩ := List.mem_map.mp hmem
      exact h1 (List.mem_map.mpr ⟨e, he, by rw [hek, ← hak]⟩)
    · have hpa : (a.1 == k) = false := by simpa using hak
      rw [List.eraseP_cons, hpa, cond_false]
      simp only [List.map_cons, List.mem_cons]
      rintro (h | h)
      · exact hak h.symm
      · exact ih h2 h

lemma access_update_nodup {α : Type} (l : List (ℕ × CacheEntry α))
    (k cnt : ℕ)
    (hk : (l.map Prod.fst).Nodup)
    (hacc : (l.map fun e => e.2.last_access).Nodup)
    (hle : ∀ e ∈ l, e.2.last_access ≤ cnt) :
    ((l.map fun e =>
        if e.1 = k then (e.1, (⟨e.2.frame, cnt + 1⟩ : CacheEntry α)) else e).map
      fun e => e.2.last_access).Nodup := by
  induction l with
  | nil => simp
  | cons a l ih =>
    simp only [List.map_cons, List.nodup_cons] at hk hacc ⊢
    obtain ⟨hk1, hk2⟩ := hk
    obtain ⟨ha1, ha2⟩ := hacc
    by_cases hak : a.1 = k
    · have htail : ∀ e ∈ l, ¬ (e.1 = k) := by
        intro e he hek
        exact hk1 (List.mem_map.mpr ⟨e, he, by rw [hek, ← hak]⟩)
      have hmapid : (l.map fun e =>
          if e.1 = k then (e.1, (⟨e.2.frame, cnt + 1⟩ : CacheEntry α)) else e)
          = l := by
        rw [List.map_congr_left (fun e he => if_neg (htail e he)), List.map_id']
      rw [if_pos hak, hmapid]
      refine ⟨?_, ha2⟩
      intro hmem
      obtain ⟨e, he, heq⟩ := List.mem_map.mp hmem
      have := hle e (List.mem_cons_of_mem a he)
      simp only at heq
      omega
    · rw [if_neg hak]
      refine ⟨?_, ih hk2 ha2 (fun e he => hle e (List.mem_cons_of_mem a he))⟩
      intro hmem
      obtain ⟨e', he', heq⟩ := List.mem_map.mp hmem
      obtain ⟨e, he, hee⟩ := List.mem_map.mp he'
      by_cases hek : e.1 = k
      · rw [if_pos hek] at hee
        rw [← hee] at heq
        simp only at heq
        have := hle a (List.mem_cons_self a l)
        omega
      · rw [if_neg hek] at hee
        rw [← hee] at heq
        exact ha1 (List.mem_map.mpr ⟨e, he, heq⟩)

lemma inv_new {α : Type} (cap : ℕ) : CacheInv cap (LruFrameCache.new α cap) := by
  refine ⟨rfl, ?_, by simp [LruFrameCache.new], by simp [LruFrameCache.new],
    by simp [LruFrameCache.new]⟩
  simp [LruFrameCache.new]

lemma inv_get {α : Type} (cap k : ℕ) (c : LruFrameCache α)
    (h : CacheInv cap c) : CacheInv cap (c.get k).2 := by
  obtain ⟨hmax, hlen, hkeys, hacc, hle⟩ := h
  unfold LruFrameCache.get
  by_cases hc : containsKey c.entries k
  · rw [if_pos hc]
    refine ⟨hmax, ?_, ?_, ?_, ?_⟩
    · simpa using hlen
    · have : ((c.entries.map fun e =>
          if e.1 = k then (e.1, (⟨e.2.frame, c.access_counter + 1⟩ : CacheEntry α))
          else e).map Prod.fst) = c.entries.map Prod.fst := by
        rw [List.map_map]
        apply List.map_congr_left
        intro e _
        by_cases hek : e.1 = k <;> simp [hek]
      simpa [this] using hkeys
    · exact access_update_nodup c.entries k c.access_counter hkeys hacc hle
    · intro e he
      obtain ⟨e', he', hee⟩ := List.mem_map.mp he
      by_cases hek : e'.1 = k
      · rw [if_pos hek] at hee
        rw [← hee]
      · rw [if_neg hek] at hee
        rw [← hee]
        exact le_trans (hle e' he') (Nat.le_succ _)
  · rw [if_neg hc]
    exact ⟨hmax, hlen, hkeys, hacc, hle⟩

lemma minAccess_eq_none_iff {α : Type} (l : List (ℕ × CacheEntry α)) :
    minAccess l = none ↔ l = [] := by
  cases l with
  | nil => simp [minAccess]
  | cons e l =>
    obtain ⟨m, hm, _, _, _⟩ := minAccess_aux l e
    rw [minAccess, List.foldl_cons]
    simp only
    rw [hm]
    simp

lemma inv_insert_core {α : Type} (cap k cnt : ℕ) (f : α)
    (E E1 : List (ℕ × CacheEntry α))
    (hsub : List.Sublist E1 E)
    (hkeys : (E.map Prod.fst).Nodup)
    (hacc : (E.map fun e => e.2.last_access).Nodup)
    (hle : ∀ e ∈ E, e.2.last_access ≤ cnt)
    (hlen1 : ((E1.eraseP fun e => e.1 == k).length + 1) ≤ Nat.max cap 1) :
    CacheInv cap
      (⟨(k, ⟨f, cnt + 1⟩) :: E1.eraseP fun e => e.1 == k, cap, cnt + 1⟩ :
        LruFrameCache α) := by
  have hsub2 : List.Sublist (E1.eraseP fun e => e.1 == k) E :=
    List.Sublist.trans (List.eraseP_sublist E1) hsub
  have hkeys1 : (E1.map Prod.fst).Nodup :=
    hkeys.sublist (List.Sublist.map Prod.fst hsub)
  refine ⟨rfl, by simpa using hlen1, ?_, ?_, ?_⟩
  · simp only [List.map_cons, List.nodup_cons]
    exact ⟨key_not_mem_eraseP E1 k hkeys1,
      hkeys.sublist (List.Sublist.map Prod.fst hsub2)⟩
  · simp only [List.map_cons, List.nodup_cons]
    constructor
    · intro hmem
      obtain ⟨e, he, heq⟩ := List.mem_map.mp hmem
      have := hle e (hsub2.mem he)
      omega
    · exact hacc.sublist (List.Sublist.map _ hsub2)
  · intro e he
    rcases List.mem_cons.mp he with h1 | h1
    · rw [h1]
    · exact le_trans (hle e (hsub2.mem h1)) (Nat.le_succ cnt)

lemma inv_insert {α : Type} (cap k : ℕ) (f : α) (c : LruFrameCache α)
    (h : CacheInv cap c) : CacheInv cap (c.insert k f) := by
  obtain ⟨hmax, hlen, hkeys, hacc, hle⟩ := h
  subst hmax
  unfold LruFrameCache.insert
  by_cases hck : containsKey c.entries k
  · -- key present: no eviction branch, the erase of the old entry keeps size
    rw [if_neg (by intro hcon; exact hcon.2 hck)]
    obtain ⟨e0, he0, hk0⟩ := (containsKey_iff c.entries k).mp hck
    have hlen2 : (c.entries.eraseP fun e => e.1 == k).length
        = c.entries.length - 1 :=
      List.length_eraseP_of_mem he0 (by simpa using hk0)
    refine inv_insert_core c.max_entries k c.access_counter f c.entries
      c.entries (List.Sublist.refl _) hkeys hacc hle ?_
    rw [hlen2]
    have h1 : 1 ≤ c.entries.length := List.length_pos.mpr
      (List.ne_nil_of_mem he0)
    omega
  · by_cases hcap : c.max_entries ≤ c.entries.length
    · rw [if_pos ⟨hcap, hck⟩]
      cases hminE : minAccess c.entries with
      | none =>
        have hnil : c.entries = [] := (minAccess_eq_none_iff _).mp hminE
        rw [hnil]
        refine inv_insert_core c.max_entries k c.access_counter f [] []
          (List.Sublist.refl _) (by simp) (by simp) (by simp) ?_
        simp [Nat.le_max_right]
      | some m =>
        obtain ⟨hmem, _⟩ := minAccess_spec _ _ hminE
        have hlenE1 : (c.entries.eraseP fun e => e.1 == m.1).length
            = c.entries.length - 1 :=
          List.length_eraseP_of_mem hmem (by simp)
        have hnk1 : ∀ e ∈ (c.entries.eraseP fun e => e.1 == m.1),
            ¬ ((e.1 == k) = true) := by
          intro e he hek
          exact hck ((containsKey_iff c.entries k).mpr
            ⟨e, (List.eraseP_sublist c.entries).mem he, by simpa using hek⟩)
        refine inv_insert_core c.max_entries k c.access_counter f c.entries
          (c.entries.eraseP fun e => e.1 == m.1)
          (List.eraseP_sublist c.entries) hkeys hacc hle ?_
        rw [List.eraseP_of_forall_not hnk1, hlenE1]
        have h1 : 1 ≤ c.entries.length := List.length_pos.mpr
          (List.ne_nil_of_mem hmem)
        omega
    · rw [if_neg (by intro hcon; exact hcap hcon.1)]
      have hnk1 : ∀ e ∈ c.entries, ¬ ((e.1 == k) = true) := by
        intro e he hek
        exact hck ((containsKey_iff c.entries k).mpr
          ⟨e, he, by simpa using hek⟩)
      refine inv_insert_core c.max_entries k c.access_counter f c.entries
        c.entries (List.Sublist.refl _) hkeys hacc hle ?_
      rw [List.eraseP_of_forall_not hnk1]
      have h2 := lt_of_not_le hcap
      calc c.entries.length + 1 ≤ c.max_entries := h2
        _ ≤ Nat.max c.max_entries 1 := Nat.le_max_left _ _

lemma inv_runOps {α : Type} (cap : ℕ) (ops : List (CacheOp α)) :
    CacheInv cap (runOps α cap ops) := by
  unfold runOps
  have h : ∀ (c : LruFrameCache α), CacheInv cap c →
      CacheInv cap (ops.foldl applyOp c) := by
    induction ops with
    | nil => intro c hc; exact hc
    | cons op ops ih =>
      intro c hc
      rw [List.foldl_cons]
      refine ih _ ?_
      cases op with
      | get k => exact inv_get cap k c hc
      | insert k f => exact inv_insert cap k f c hc
  exact h _ (inv_new cap)

/-- C9 (amended): for every capacity `≥ 1` and every sequence of `get` and
`insert` operations from a fresh cache, the number of stored entries never
exceeds the capacity, and the entry `insert` would evict — the
`min_by_key(last_access)` entry — is *strictly* the least recently accessed:
its stamp is below that of every other entry.  (As originally stated the
claim fails at capacity 0, where a single insertion stores one entry.) -/
theorem lru_cache_capacity_and_eviction {α : Type} (cap : ℕ) (hcap : 1 ≤ cap)
    (ops : List (CacheOp α)) :
    (runOps α cap ops).entries.length ≤ cap ∧
    (∀ m, minAccess (runOps α cap ops).entries = some m →
      ∀ e ∈ (runOps α cap ops).entries, e.1 ≠ m.1 →
        m.2.last_access < e.2.last_access) := by
  obtain ⟨hmax, hlen, hkeys, hacc, hle⟩ := inv_runOps cap ops (α := α)
  constructor
  · calc (runOps α cap ops).entries.length ≤ Nat.max cap 1 := hlen
      _ = cap := Nat.max_eq_left hcap
  · intro m hm e he hne
    obtain ⟨hmem, hmin⟩ := minAccess_spec _ _ hm
    refine lt_of_le_of_ne (hmin e he) ?_
    intro heq
    exact hne (congrArg Prod.fst
      (List.inj_on_of_nodup_map hacc he hmem heq.symm))

/-- Witness for C9's amended statement: capacity 2, four operations
(two inserts filling the cache, a `get` refreshing key 0, an insert of key 2
that must evict key 1). -/
theorem lru_cache_capacity_and_eviction_witness :
    (runOps ℕ 2 [CacheOp.insert 0 10, CacheOp.insert 1 11, CacheOp.get 0,
      CacheOp.insert 2 12]).entries.length ≤ 2 ∧
    (∀ m, minAccess (runOps ℕ 2 [CacheOp.insert 0 10, CacheOp.insert 1 11,
        CacheOp.get 0, CacheOp.insert 2 12]).entries = some m →
      ∀ e ∈ (runOps ℕ 2 [CacheOp.insert 0 10, CacheOp.insert 1 11,
        CacheOp.get 0, CacheOp.insert 2 12]).entries, e.1 ≠ m.1 →
        m.2.last_access < e.2.last_access) :=
  lru_cache_capacity_and_eviction 2 (by norm_num) _

/-! ## FITS header parsing and offsets (`utils/mmap.rs`, `model/header.rs`)

The byte stream is modelled at the granularity the parser inspects it: a
sequence of 80-byte cards, each classified by its trimmed 8-byte keyword and
by whether bytes 8..10 are the value indicator `"= "`; the card's value
field is carried as the already-extracted string (its content never affects
offsets).  `BLOCK_SIZE = 2880` bytes is `CARDS_PER_BLOCK = 36` cards. -/

/-- One 80-byte header card. -/
structure FitsCard where
  keyword : String
  has_value_indicator : Bool
  value : String
deriving DecidableEq

/-- `BLOCK_SIZE` (utils/constants.rs): 2880 bytes per header block. -/
def BLOCK_SIZE : ℕ := 2880

/-- Cards per 2880-byte block. -/
def CARDS_PER_BLOCK : ℕ := 36

/-- The per-block card scan of `parse_header_at` (mmap.rs:134-154): stop at
an `END` keyword; store `(keyword, value)` only for cards carrying the
`"= "` value indicator; skip everything else (COMMENT, HISTORY, blanks).
Returns the stored cards of the block and whether `END` was seen. -/
def scanBlock : List FitsCard → List (String × String) × Bool
  | [] => ([], false)
  | c :: rest =>
    if c.keyword = "END" then ([], true)
    else
      let r := scanBlock rest
      if c.has_value_indicator then ((c.keyword, c.value) :: r.1, r.2)
      else r

/-- `parse_header_at` (mmap.rs:120-168), block loop: consume 2880-byte
blocks until the block containing `END`; `none` models the
"unexpected end of file" failure when the next full block is missing.
The result is the stored card list and the number of blocks consumed; the
parser's `data_start` is `header_start + blocks · 2880`.  `fuel` bounds the
recursion (any value ≥ the block count of the stream works). -/
def parseHeaderCards : ℕ → List FitsCard → Option (List (String × String) × ℕ)
  | 0, _ => none
  | fuel + 1, cards =>
    if cards.length < CARDS_PER_BLOCK then none
    else
      let block := cards.take CARDS_PER_BLOCK
      let r := scanBlock block
      if r.2 then some (r.1, 1)
      else
        match parseHeaderCards fuel (cards.drop CARDS_PER_BLOCK) with
        | some (rest, blocks) => some (r.1 ++ rest, blocks + 1)
        | none => none

/-- `HduHeader::header_blocks` (header.rs:44-48): blocks inferred from the
*stored* card count plus one for `END`. -/
def header_blocks (stored : List (String × String)) : ℕ :=
  (stored.length + 1 + (CARDS_PER_BLOCK - 1)) / CARDS_PER_BLOCK

/-- `HduHeader::data_offset` (header.rs:50-52). -/
def data_offset (header_start : ℕ) (stored : List (String × String)) : ℕ :=
  header_start + header_blocks stored * BLOCK_SIZE

/-- `ParsedHdu::data_start` (mmap.rs:157-158): the first 2880-aligned offset
past the block in which the parser saw `END`. -/
def data_start (header_start blocks : ℕ) : ℕ :=
  header_start + blocks * BLOCK_SIZE

/-- C8's failing input, evaluated: a header whose first 2880-byte block is
36 `COMMENT` cards and whose second block starts with `END`.  The parser
stops after two blocks, so the data begins at byte 5760; but only valued
cards are stored (`cards` is empty), so `HduHeader::data_offset` — used by
the lazy cube — computes `ceil((0+1)/36)·2880 = 2880`.  The two offsets the
claim equates differ. -/
theorem header_data_offset_mismatch :
    parseHeaderCards 2
      (List.replicate 36 ⟨"COMMENT", false, ""⟩ ++
        (⟨"END", false, ""⟩ :: List.replicate 35 ⟨"", false, ""⟩))
      = some ([], 2) ∧
    data_offset 0 [] = 2880 ∧
    data_start 0 2 = 5760 ∧
    (2880 : ℕ) ≠ 5760 := by
  refine ⟨by decide, by decide, by decide, by decide⟩

/-! ## WCS projections (`domain/wcs.rs`)

Modelled over `ℝ` (the code's `f64` trigonometry, exact).  A NaN result
(the source's `(f64::NAN, f64::NAN)` returns) is `none`.  Note one model
divergence the theorems avoid: Lean's `x / 0 = 0` where IEEE gives `±inf`
(the CAR deprojection at `cos δ₀ = 0`); the round-trip theorem assumes
`cos δ₀ ≠ 0`. -/

/-- The projection type tags (wcs.rs:15-21). -/
inductive Projection where
  | tan
  | sin
  | arc
  | car
deriving DecidableEq

/-- `WcsTransform` (wcs.rs:5-13); `cd` row-major: `cd00 = cd[0][0]` … -/
structure WcsTransform where
  crpix1 : ℝ
  crpix2 : ℝ
  crval1 : ℝ
  crval2 : ℝ
  cd00 : ℝ
  cd01 : ℝ
  cd10 : ℝ
  cd11 : ℝ
  projection : Projection

/-- `f64::to_radians`. -/
noncomputable def toRadians (d : ℝ) : ℝ := d * (Real.pi / 180)

/-- `f64::to_degrees`. -/
noncomputable def toDegrees (r : ℝ) : ℝ := r * (180 / Real.pi)

/-- `f64::atan2(self = y, x)`: the angle of the point `(x, y)` in
`(-π, π]`, which is `Complex.arg (x + y·i)`. -/
noncomputable def atan2 (y x : ℝ) : ℝ := Complex.arg ⟨x, y⟩

/-- The RA wrap of `deproject` (wcs.rs:190-196): add 360 when negative,
subtract 360 when ≥ 360. -/
noncomputable def wrapRa (r : ℝ) : ℝ :=
  let r1 := if r < 0 then r + 360 else r
  if r1 ≥ 360 then r1 - 360 else r1

/-- The per-projection body of `deproject` (wcs.rs:156-188), in radians. -/
noncomputable def deprojectRaw (w : WcsTransform) (xi eta : ℝ) : ℝ × ℝ :=
  match w.projection with
  | .tan =>
    (toRadians w.crval1 +
      atan2 xi (Real.cos (toRadians w.crval2)
        - eta * Real.sin (toRadians w.crval2)),
     atan2 (Real.sin (toRadians w.crval2) + eta * Real.cos (toRadians w.crval2))
       (Real.sqrt (xi * xi +
         (Real.cos (toRadians w.crval2)
           - eta * Real.sin (toRadians w.crval2)) ^ 2)))
  | .sin =>
    (toRadians w.crval1 +
      atan2 xi (Real.sqrt (max (1 - xi * xi - eta * eta) 0)
          * Real.cos (toRadians w.crval2)
        - eta * Real.sin (toRadians w.crval2)),
     Real.arcsin (Real.sqrt (max (1 - xi * xi - eta * eta) 0)
        * Real.sin (toRadians w.crval2)
       + eta * Real.cos (toRadians w.crval2)))
  | .arc =>
    if Real.sqrt (xi * xi + eta * eta) < 1 / 10 ^ 15 then
      (toRadians w.crval1, toRadians w.crval2)
    else
      (toRadians w.crval1 +
        atan2 (xi * Real.sin (Real.sqrt (xi * xi + eta * eta)))
          (Real.sqrt (xi * xi + eta * eta) * Real.cos (toRadians w.crval2)
              * Real.cos (Real.sqrt (xi * xi + eta * eta))
            - eta * Real.sin (toRadians w.crval2)
              * Real.sin (Real.sqrt (xi * xi + eta * eta))),
       Real.arcsin (Real.cos (Real.sqrt (xi * xi + eta * eta))
          * Real.sin (toRadians w.crval2)
         + (eta / Real.sqrt (xi * xi + eta * eta))
           * Real.sin (Real.sqrt (xi * xi + eta * eta))
           * Real.cos (toRadians w.crval2)))
  | .car =>
    (toRadians w.crval1 + xi / Real.cos (toRadians w.crval2),
     toRadians w.crval2 + eta)

/-- `deproject` (wcs.rs:150-202): radians in via `to_radians`, degrees out,
RA wrapped into `[0, 360)`. -/
noncomputable def deproject (w : WcsTransform) (xi_deg eta_deg : ℝ) : ℝ × ℝ :=
  (wrapRa (toDegrees (deprojectRaw w (toRadians xi_deg) (toRadians eta_deg)).1),
   toDegrees (deprojectRaw w (toRadians xi_deg) (toRadians eta_deg)).2)

/-- `project` (wcs.rs:204-249): world (degrees) to intermediate tangent
coordinates (degrees); `none` models the NaN returns. -/
noncomputable def project (w : WcsTransform) (ra dec : ℝ) : Option (ℝ × ℝ) :=
  match w.projection with
  | .tan =>
    if |Real.sin (toRadians dec) * Real.sin (toRadians w.crval2)
        + Real.cos (toRadians dec) * Real.cos (toRadians w.crval2)
          * Real.cos (toRadians ra - toRadians w.crval1)| < 1 / 10 ^ 15 then
      none
    else
      some
        (toDegrees ((Real.cos (toRadians dec)
            * Real.sin (toRadians ra - toRadians w.crval1)) /
          (Real.sin (toRadians dec) * Real.sin (toRadians w.crval2)
            + Real.cos (toRadians dec) * Real.cos (toRadians w.crval2)
              * Real.cos (toRadians ra - toRadians w.crval1))),
         toDegrees ((Real.sin (toRadians dec) * Real.cos (toRadians w.crval2)
            - Real.cos (toRadians dec) * Real.sin (toRadians w.crval2)
              * Real.cos (toRadians ra - toRadians w.crval1)) /
          (Real.sin (toRadians dec) * Real.sin (toRadians w.crval2)
            + Real.cos (toRadians dec) * Real.cos (toRadians w.crval2)
              * Real.cos (toRadians ra - toRadians w.crval1))))
  | .sin =>
    some
      (toDegrees (Real.cos (toRadians dec)
        * Real.sin (toRadians ra - toRadians w.crval1)),
       toDegrees (Real.sin (toRadians dec) * Real.cos (toRadians w.crval2)
        - Real.cos (toRadians dec) * Real.sin (toRadians w.crval2)
          * Real.cos (toRadians ra - toRadians w.crval1)))
  | .arc =>
    if |Real.arccos (max (min (Real.sin (toRadians dec)
          * Real.sin (toRadians w.crval2)
        + Real.cos (toRadians dec) * Real.cos (toRadians w.crval2)
          * Real.cos (toRadians ra - toRadians w.crval1)) 1) (-1))|
        < 1 / 10 ^ 15 then
      some (0, 0)
    else
      some
        (toDegrees ((Real.arccos (max (min (Real.sin (toRadians dec)
              * Real.sin (toRadians w.crval2)
            + Real.cos (toRadians dec) * Real.cos (toRadians w.crval2)
              * Real.cos (toRadians ra - toRadians w.crval1)) 1) (-1)) /
            Real.sin (Real.arccos (max (min (Real.sin (toRadians dec)
                * Real.sin (toRadians w.crval2)
              + Real.cos (toRadians dec) * Real.cos (toRadians w.crval2)
                * Real.cos (toRadians ra - toRadians w.crval1)) 1) (-1))))
          * Real.cos (toRadians dec)
          * Real.sin (toRadians ra - toRadians w.crval1)),
         toDegrees ((Real.arccos (max (min (Real.sin (toRadians dec)
              * Real.sin (toRadians w.crval2)
            + Real.cos (toRadians dec) * Real.cos (toRadians w.crval2)
              * Real.cos (toRadians ra - toRadians w.crval1)) 1) (-1)) /
            Real.sin (Real.arccos (max (min (Real.sin (toRadians dec)
                * Real.sin (toRadians w.crval2)
              + Real.cos (toRadians dec) * Real.cos (toRadians w.crval2)
                * Real.cos (toRadians ra - toRadians w.crval1)) 1) (-1))))
          * (Real.sin (toRadians dec) * Real.cos (toRadians w.crval2)
            - Real.cos (toRadians dec) * Real.sin (toRadians w.crval2)
              * Real.cos (toRadians ra - toRadians w.crval1))))
  | .car =>
    some
      (toDegrees ((toRadians ra - toRadians w.crval1)
        * Real.cos (toRadians w.crval2)),
       toDegrees (toRadians dec - toRadians w.crval2))

/-- `pixel_to_world` (wcs.rs:125-133): FITS 1-based offset from `CRPIX`,
CD matrix to intermediate degrees, deproject. -/
noncomputable def pixel_to_world (w : WcsTransform) (x y : ℝ) : ℝ × ℝ :=
  deproject w
    (w.cd00 * (x - w.crpix1 + 1) + w.cd01 * (y - w.crpix2 + 1))
    (w.cd10 * (x - w.crpix1 + 1) + w.cd11 * (y - w.crpix2 + 1))

/-- `world_to_pixel` (wcs.rs:135-148): project, invert the CD matrix
(`none` — NaN — when `|det| < 1e-30`), back to pixel coordinates. -/
noncomputable def world_to_pixel (w : WcsTransform) (ra dec : ℝ) :
    Option (ℝ × ℝ) :=
  match project w ra dec with
  | none => none
  | some p =>
    if |w.cd00 * w.cd11 - w.cd01 * w.cd10| < 1 / 10 ^ 30 then none
    else
      some
        ((1 / (w.cd00 * w.cd11 - w.cd01 * w.cd10))
            * (w.cd11 * p.1 - w.cd01 * p.2) + w.crpix1 - 1,
         (1 / (w.cd00 * w.cd11 - w.cd01 * w.cd10))
            * (-w.cd10 * p.1 + w.cd00 * p.2) + w.crpix2 - 1)

lemma toDegrees_toRadians (x : ℝ) : toDegrees (toRadians x) = x := by
  unfold toDegrees toRadians
  field_simp

lemma toRadians_toDegrees (x : ℝ) : toRadians (toDegrees x) = x := by
  unfold toDegrees toRadians
  field_simp

lemma toRadians_zero : toRadians 0 = 0 := by
  unfold toRadians
  ring

/-! Sine and cosine of `atan2`, from `Complex.arg`; these are what the
`project` branches see of the deprojected angles. -/

lemma abs_complex_mk (x y : ℝ) :
    Complex.abs ⟨x, y⟩ = Real.sqrt (x ^ 2 + y ^ 2) := by
  rw [Complex.abs_apply, Complex.normSq_mk]
  congr 1
  ring

lemma complex_mk_ne_zero (x y : ℝ) (h : x ^ 2 + y ^ 2 ≠ 0) :
    (⟨x, y⟩ : ℂ) ≠ 0 := by
  intro hz
  apply h
  have hx : x = 0 := by simpa using congrArg Complex.re hz
  have hy : y = 0 := by simpa using congrArg Complex.im hz
  rw [hx, hy]
  ring

lemma sin_atan2 (y x : ℝ) :
    Real.sin (atan2 y x) = y / Real.sqrt (x ^ 2 + y ^ 2) := by
  rw [atan2, Complex.sin_arg, abs_complex_mk]

lemma cos_atan2 (y x : ℝ) (h : x ^ 2 + y ^ 2 ≠ 0) :
    Real.cos (atan2 y x) = x / Real.sqrt (x ^ 2 + y ^ 2) := by
  rw [atan2, Complex.cos_arg (complex_mk_ne_zero x y h), abs_complex_mk]

/-! The RA wrap shifts the angle by 0 or ±360°, i.e. by 0 or ±2π radians,
so any `sin`/`cos` of the wrapped RA minus a reference is unchanged. -/

lemma toRadians_add_360 (d : ℝ) :
    toRadians (d + 360) = toRadians d + 2 * Real.pi := by
  unfold toRadians
  ring

lemma toRadians_sub_360 (d : ℝ) :
    toRadians (d - 360) = toRadians d - 2 * Real.pi := by
  unfold toRadians
  ring

lemma cos_sub_two_pi (x : ℝ) : Real.cos (x - 2 * Real.pi) = Real.cos x := by
  rw [Real.cos_sub, Real.cos_two_pi, Real.sin_two_pi]
  ring

lemma sin_sub_two_pi (x : ℝ) : Real.sin (x - 2 * Real.pi) = Real.sin x := by
  rw [Real.sin_sub, Real.cos_two_pi, Real.sin_two_pi]
  ring

lemma wrapRa_eq (d : ℝ) :
    wrapRa d = d ∨ wrapRa d = d + 360 ∨ wrapRa d = d - 360 := by
  unfold wrapRa
  by_cases h1 : d < 0
  · have h2 : ¬ (d + 360 ≥ 360) := by simp only [ge_iff_le, not_le]; linarith
    simp only [if_pos h1, if_neg h2]
    right; left; trivial
  · by_cases h2 : d ≥ 360
    · simp only [if_neg h1, if_pos h2]
      right; right; trivial
    · simp only [if_neg h1, if_neg h2]
      left; trivial

lemma cos_toRadians_wrapRa_sub (d b : ℝ) :
    Real.cos (toRadians (wrapRa d) - b) = Real.cos (toRadians d - b) := by
  rcases wrapRa_eq d with h | h | h
  · rw [h]
  · rw [h, toRadians_add_360, show toRadians d + 2 * Real.pi - b
        = toRadians d - b + 2 * Real.pi by ring, Real.cos_add_two_pi]
  · rw [h, toRadians_sub_360, show toRadians d - 2 * Real.pi - b
        = toRadians d - b - 2 * Real.pi by ring, cos_sub_two_pi]

lemma sin_toRadians_wrapRa_sub (d b : ℝ) :
    Real.sin (toRadians (wrapRa d) - b) = Real.sin (toRadians d - b) := by
  rcases wrapRa_eq d with h | h | h
  · rw [h]
  · rw [h, toRadians_add_360, show toRadians d + 2 * Real.pi - b
        = toRadians d - b + 2 * Real.pi by ring, Real.sin_add_two_pi]
  · rw [h, toRadians_sub_360, show toRadians d - 2 * Real.pi - b
        = toRadians d - b - 2 * Real.pi by ring, sin_sub_two_pi]

/-- When `project` returns exactly the CD-mapped offsets of pixel
`(x, y)` and the determinant guard passes, `world_to_pixel` inverts the
CD matrix exactly and lands back on `(x, y)`. -/
lemma world_to_pixel_of_project (w : WcsTransform) (ra dec x y : ℝ)
    (hdet : ¬ |w.cd00 * w.cd11 - w.cd01 * w.cd10| < 1 / 10 ^ 30)
    (hpr : project w ra dec
      = some (w.cd00 * (x - w.crpix1 + 1) + w.cd01 * (y - w.crpix2 + 1),
              w.cd10 * (x - w.crpix1 + 1) + w.cd11 * (y - w.crpix2 + 1))) :
    world_to_pixel w ra dec = some (x, y) := by
  have hdet0 : w.cd00 * w.cd11 - w.cd01 * w.cd10 ≠ 0 := by
    intro h0
    apply hdet
    rw [h0, abs_zero]
    norm_num
  unfold world_to_pixel
  rw [hpr]
  simp only
  rw [if_neg hdet]
  simp only [Option.some.injEq, Prod.mk.injEq]
  constructor
  · field_simp
    ring
  · field_simp
    ring

/-- The concrete transform of the C7 counterexample: CAR projection,
reference pixel (1,1) at RA/Dec (0,0), CD = diag(-0.001, 0.001). -/
noncomputable def wcsCarEx : WcsTransform :=
  ⟨1, 1, 0, 0, -(1 / 1000), 0, 0, 1 / 1000, Projection.car⟩


/-- Counterexample to C7 as stated: under the CAR projection the
deprojected RA is wrapped into `[0, 360)` but `project` uses the raw
difference `ra − crval1`, so a pixel just left of the reference maps to
RA ≈ 359.999° and comes back 360°/scale ≈ 360000 pixels away: the
round trip of pixel `(1, 0)` lands at `(-359999, 0)`, though
`|det CD| = 10⁻⁶ > 10⁻²⁰`. -/
theorem wcs_roundtrip_counterexample :
    |wcsCarEx.cd00 * wcsCarEx.cd11 - wcsCarEx.cd01 * wcsCarEx.cd10|
      > 1 / 10 ^ 20 ∧
    world_to_pixel wcsCarEx (pixel_to_world wcsCarEx 1 0).1
      (pixel_to_world wcsCarEx 1 0).2 = some (-359999, 0) ∧
    ¬ (|(-359999 : ℝ) - 1| < 1 / 1000) := by
  have hdetv : wcsCarEx.cd00 * wcsCarEx.cd11 - wcsCarEx.cd01 * wcsCarEx.cd10
      = -(1 / 1000000) := by
    norm_num [wcsCarEx]
  have habs : |wcsCarEx.cd00 * wcsCarEx.cd11 - wcsCarEx.cd01 * wcsCarEx.cd10|
      = 1 / 1000000 := by
    rw [hdetv, abs_neg, abs_of_pos (by norm_num)]
  have hp2w : pixel_to_world wcsCarEx 1 0 = (359999 / 1000, 0) := by
    unfold pixel_to_world deproject deprojectRaw wrapRa wcsCarEx
    simp only
    norm_num [toRadians_zero, Real.cos_zero, toDegrees_toRadians]
    unfold toDegrees
    ring
  refine ⟨by rw [habs]; norm_num, ?_, by norm_num⟩
  rw [hp2w]
  unfold world_to_pixel project wcsCarEx
  simp only
  rw [if_neg (by
    rw [show (-(1 / 1000) * (1 / 1000) - 0 * 0 : ℝ) = -(1 / 1000000) by
        norm_num,
      abs_neg, abs_of_pos (by norm_num : (0 : ℝ) < 1 / 1000000)]
    norm_num)]
  have hxi : toDegrees ((toRadians (359999 / 1000) - toRadians 0)
      * Real.cos (toRadians 0)) = 359999 / 1000 := by
    rw [toRadians_zero, Real.cos_zero, mul_one, sub_zero, toDegrees_toRadians]
  have heta : toDegrees (toRadians 0 - toRadians 0) = 0 := by
    rw [sub_self]
    unfold toDegrees
    ring
  rw [hxi, heta]
  simp only [Option.some.injEq, Prod.mk.injEq]
  constructor
  · norm_num
  · norm_num

/-- The intermediate degree coordinate `ξ = CD·(dx,dy)` row 0, as
`pixel_to_world` computes it. -/
noncomputable def xiDeg (w : WcsTransform) (x y : ℝ) : ℝ :=
  w.cd00 * (x - w.crpix1 + 1) + w.cd01 * (y - w.crpix2 + 1)

/-- Row 1 of `CD·(dx,dy)`. -/
noncomputable def etaDeg (w : WcsTransform) (x y : ℝ) : ℝ :=
  w.cd10 * (x - w.crpix1 + 1) + w.cd11 * (y - w.crpix2 + 1)

/-- The CAR branch of the round trip: whenever `cos δ₀ ≠ 0`,
`|det CD| ≥ 10⁻³⁰` and the deprojected RA needs no wrap adjustment (it
already lies in `[0, 360)`), the round trip
`world_to_pixel ∘ pixel_to_world` is exact.  (The wrap hypothesis is
forced by the counterexample above: when the RA wraps, the CAR
re-projection is off by 360°·cos δ₀ in `ξ`.) -/
lemma wcs_car_roundtrip_exact (w : WcsTransform)
    (hproj : w.projection = Projection.car)
    (hcos : Real.cos (toRadians w.crval2) ≠ 0)
    (hdet : ¬ |w.cd00 * w.cd11 - w.cd01 * w.cd10| < 1 / 10 ^ 30)
    (x y : ℝ)
    (hwrap0 : 0 ≤ toDegrees (toRadians w.crval1
      + toRadians (xiDeg w x y) / Real.cos (toRadians w.crval2)))
    (hwrap1 : toDegrees (toRadians w.crval1
      + toRadians (xiDeg w x y) / Real.cos (toRadians w.crval2)) < 360) :
    ∃ px py,
      world_to_pixel w (pixel_to_world w x y).1 (pixel_to_world w x y).2
        = some (px, py) ∧ |px - x| < 1 / 1000 ∧ |py - y| < 1 / 1000 := by
  have hdet0 : w.cd00 * w.cd11 - w.cd01 * w.cd10 ≠ 0 := by
    intro h0
    apply hdet
    rw [h0, abs_zero]
    norm_num
  have hp2w : pixel_to_world w x y
      = (toDegrees (toRadians w.crval1
          + toRadians (xiDeg w x y) / Real.cos (toRadians w.crval2)),
         toDegrees (toRadians w.crval2 + toRadians (etaDeg w x y))) := by
    unfold pixel_to_world
    rw [show w.cd00 * (x - w.crpix1 + 1) + w.cd01 * (y - w.crpix2 + 1)
        = xiDeg w x y from rfl,
      show w.cd10 * (x - w.crpix1 + 1) + w.cd11 * (y - w.crpix2 + 1)
        = etaDeg w x y from rfl]
    unfold deproject deprojectRaw wrapRa
    rw [hproj]
    simp only
    rw [if_neg (not_lt.mpr hwrap0), if_neg (not_le.mpr hwrap1)]
  have hproj2 : project w
      (toDegrees (toRadians w.crval1
        + toRadians (xiDeg w x y) / Real.cos (toRadians w.crval2)))
      (toDegrees (toRadians w.crval2 + toRadians (etaDeg w x y)))
      = some (xiDeg w x y, etaDeg w x y) := by
    unfold project
    rw [hproj]
    simp only [toRadians_toDegrees, Option.some.injEq, Prod.mk.injEq]
    constructor
    · rw [add_sub_cancel_left, div_mul_cancel₀ _ hcos, toDegrees_toRadians]
    · rw [add_sub_cancel_left, toDegrees_toRadians]
  refine ⟨x, y, ?_, by rw [sub_self, abs_zero]; norm_num,
    by rw [sub_self, abs_zero]; norm_num⟩
  rw [hp2w]
  unfold world_to_pixel
  rw [hproj2]
  simp only
  rw [if_neg hdet]
  simp only [Option.some.injEq, Prod.mk.injEq]
  unfold xiDeg etaDeg
  constructor
  · field_simp
    ring
  · field_simp
    ring

/-- The identity-scale CAR transform of the C7 witness. -/
noncomputable def wcsCarId : WcsTransform :=
  ⟨1, 1, 0, 0, 1, 0, 0, 1, Projection.car⟩

/-- Instance of the CAR branch: CAR transform with unit CD at
RA/Dec (0,0); pixel (10, 20) deprojects to RA 10° ∈ [0, 360) (no wrap) and
round-trips exactly. -/
theorem wcs_car_roundtrip_exact_witness :
    ∃ px py,
      world_to_pixel wcsCarId (pixel_to_world wcsCarId 10 20).1
        (pixel_to_world wcsCarId 10 20).2 = some (px, py) ∧
      |px - 10| < 1 / 1000 ∧ |py - 20| < 1 / 1000 := by
  have hx : xiDeg wcsCarId 10 20 = 10 := by
    norm_num [xiDeg, wcsCarId]
  have hval : toDegrees (toRadians wcsCarId.crval1
      + toRadians (xiDeg wcsCarId 10 20) / Real.cos (toRadians wcsCarId.crval2))
      = 10 := by
    rw [hx]
    show toDegrees (toRadians (0 : ℝ)
      + toRadians 10 / Real.cos (toRadians 0)) = 10
    rw [toRadians_zero, Real.cos_zero, div_one, zero_add, toDegrees_toRadians]
  refine wcs_car_roundtrip_exact wcsCarId rfl ?_ ?_ 10 20
    (by rw [hval]; norm_num) (by rw [hval]; norm_num)
  · show Real.cos (toRadians (0 : ℝ)) ≠ 0
    rw [toRadians_zero, Real.cos_zero]
    norm_num
  · show ¬ |(1 : ℝ) * 1 - 0 * 0| < 1 / 10 ^ 30
    norm_num

/-! ### Exact inverses of the TAN, SIN and ARC branches

Unlike CAR, these three branches consume the (possibly wrapped) RA only
through `sin`/`cos` of `Δα = ra − CRVAL1`, so the RA wrap of `deproject`
is invisible to them and the round trip is exact on each branch's
domain.  The three `*_branch_inverse` lemmas do the spherical
trigonometry over the abstract sine/cosine pair `(s0, c0)` of `δ₀`; the
`*_project_deproject` lemmas connect them to the source's `project` and
`deprojectRaw` shapes. -/

/-- TAN inverse: with `q = √(ξ² + (c0 − η·s0)²)` nonzero and
`1 + ξ² + η² ≤ 10³⁰`, the projection denominator equals
`1/√(1 + ξ² + η²)` (so the `10⁻¹⁵` NaN guard cannot fire) and the two
quotients recover `ξ` and `η` exactly. -/
lemma tan_branch_inverse (s0 c0 ξ η : ℝ) (h1 : s0 ^ 2 + c0 ^ 2 = 1)
    (hq : ξ * ξ + (c0 - η * s0) ^ 2 ≠ 0)
    (hb : 1 + ξ * ξ + η * η ≤ 10 ^ 30) :
    ¬ |Real.sin (atan2 (s0 + η * c0)
          (Real.sqrt (ξ * ξ + (c0 - η * s0) ^ 2))) * s0
        + Real.cos (atan2 (s0 + η * c0)
            (Real.sqrt (ξ * ξ + (c0 - η * s0) ^ 2))) * c0
          * Real.cos (atan2 ξ (c0 - η * s0))| < 1 / 10 ^ 15 ∧
    Real.cos (atan2 (s0 + η * c0) (Real.sqrt (ξ * ξ + (c0 - η * s0) ^ 2)))
        * Real.sin (atan2 ξ (c0 - η * s0)) /
      (Real.sin (atan2 (s0 + η * c0)
          (Real.sqrt (ξ * ξ + (c0 - η * s0) ^ 2))) * s0
        + Real.cos (atan2 (s0 + η * c0)
            (Real.sqrt (ξ * ξ + (c0 - η * s0) ^ 2))) * c0
          * Real.cos (atan2 ξ (c0 - η * s0))) = ξ ∧
    (Real.sin (atan2 (s0 + η * c0)
        (Real.sqrt (ξ * ξ + (c0 - η * s0) ^ 2))) * c0
      - Real.cos (atan2 (s0 + η * c0)
            (Real.sqrt (ξ * ξ + (c0 - η * s0) ^ 2))) * s0
          * Real.cos (atan2 ξ (c0 - η * s0))) /
      (Real.sin (atan2 (s0 + η * c0)
          (Real.sqrt (ξ * ξ + (c0 - η * s0) ^ 2))) * s0
        + Real.cos (atan2 (s0 + η * c0)
            (Real.sqrt (ξ * ξ + (c0 - η * s0) ^ 2))) * c0
          * Real.cos (atan2 ξ (c0 - η * s0))) = η := by
  have hqnn : (0:ℝ) ≤ ξ * ξ + (c0 - η * s0) ^ 2 :=
    add_nonneg (mul_self_nonneg ξ) (sq_nonneg _)
  have hqpos : 0 < ξ * ξ + (c0 - η * s0) ^ 2 := lt_of_le_of_ne hqnn (Ne.symm hq)
  set q := Real.sqrt (ξ * ξ + (c0 - η * s0) ^ 2) with hqdef
  have hq2 : q ^ 2 = ξ * ξ + (c0 - η * s0) ^ 2 := Real.sq_sqrt hqnn
  have hqpos' : 0 < q := Real.sqrt_pos.mpr hqpos
  have hqne : q ≠ 0 := ne_of_gt hqpos'
  have hu2 : q ^ 2 + (s0 + η * c0) ^ 2 = 1 + ξ * ξ + η * η := by
    rw [hq2]
    linear_combination (1 + η ^ 2) * h1
  have hrpos : (0:ℝ) < 1 + ξ * ξ + η * η := by
    nlinarith [mul_self_nonneg ξ, mul_self_nonneg η]
  set r := Real.sqrt (1 + ξ * ξ + η * η) with hrdef
  have hr2 : r ^ 2 = 1 + ξ * ξ + η * η := Real.sq_sqrt (le_of_lt hrpos)
  have hrpos' : 0 < r := Real.sqrt_pos.mpr hrpos
  have hrne : r ≠ 0 := ne_of_gt hrpos'
  have hsind : Real.sin (atan2 (s0 + η * c0) q) = (s0 + η * c0) / r := by
    rw [sin_atan2, hu2, hrdef]
  have hu2ne : q ^ 2 + (s0 + η * c0) ^ 2 ≠ 0 := by
    rw [hu2]
    positivity
  have hcosd : Real.cos (atan2 (s0 + η * c0) q) = q / r := by
    rw [cos_atan2 _ _ hu2ne, hu2, hrdef]
  have hA2 : (c0 - η * s0) ^ 2 + ξ ^ 2 ≠ 0 := by
    rw [show (c0 - η * s0) ^ 2 + ξ ^ 2 = ξ * ξ + (c0 - η * s0) ^ 2 from by ring]
    exact hq
  have hsinA : Real.sin (atan2 ξ (c0 - η * s0)) = ξ / q := by
    rw [sin_atan2]
    rw [hqdef]
    congr 2
    ring
  have hcosA : Real.cos (atan2 ξ (c0 - η * s0)) = (c0 - η * s0) / q := by
    rw [cos_atan2 _ _ hA2]
    rw [hqdef]
    congr 2
    ring
  have hD : Real.sin (atan2 (s0 + η * c0) q) * s0
      + Real.cos (atan2 (s0 + η * c0) q) * c0
        * Real.cos (atan2 ξ (c0 - η * s0)) = 1 / r := by
    rw [hsind, hcosd, hcosA]
    field_simp
    linear_combination (q * r ^ 2) * h1
  have hrle : r ≤ 10 ^ 15 := by
    rw [hrdef]
    calc Real.sqrt (1 + ξ * ξ + η * η) ≤ Real.sqrt (10 ^ 30) :=
          Real.sqrt_le_sqrt hb
    _ = 10 ^ 15 := by
        rw [show (10:ℝ) ^ 30 = ((10:ℝ) ^ 15) ^ 2 from by norm_num]
        exact Real.sqrt_sq (by positivity)
  refine ⟨?_, ?_, ?_⟩
  · rw [hD, abs_of_pos (by positivity), not_lt]
    exact one_div_le_one_div_of_le hrpos' hrle
  · rw [hD, hcosd, hsinA]
    field_simp
    ring
  · rw [hD, hsind, hcosd, hcosA]
    field_simp
    linear_combination (η * q * r ^ 2) * h1

/-- The TAN round trip at the `project`/`deprojectRaw` level. -/
lemma tan_project_deproject (w : WcsTransform)
    (hproj : w.projection = Projection.tan) (ξ η : ℝ)
    (hq : ξ * ξ + (Real.cos (toRadians w.crval2)
      - η * Real.sin (toRadians w.crval2)) ^ 2 ≠ 0)
    (hb : 1 + ξ * ξ + η * η ≤ 10 ^ 30) :
    project w (wrapRa (toDegrees (deprojectRaw w ξ η).1))
      (toDegrees (deprojectRaw w ξ η).2)
      = some (toDegrees ξ, toDegrees η) := by
  have hdr : deprojectRaw w ξ η
      = (toRadians w.crval1 +
          atan2 ξ (Real.cos (toRadians w.crval2)
            - η * Real.sin (toRadians w.crval2)),
         atan2 (Real.sin (toRadians w.crval2)
            + η * Real.cos (toRadians w.crval2))
           (Real.sqrt (ξ * ξ +
             (Real.cos (toRadians w.crval2)
               - η * Real.sin (toRadians w.crval2)) ^ 2))) := by
    unfold deprojectRaw
    rw [hproj]
  obtain ⟨hg, hξ, hη⟩ := tan_branch_inverse (Real.sin (toRadians w.crval2))
    (Real.cos (toRadians w.crval2)) ξ η (Real.sin_sq_add_cos_sq _) hq hb
  unfold project
  rw [hproj]
  rw [hdr]
  simp only [toRadians_toDegrees, cos_toRadians_wrapRa_sub,
    sin_toRadians_wrapRa_sub, add_sub_cancel_left]
  rw [if_neg hg, hξ, hη]

/-- SIN (orthographic) inverse: on the unit disc `ξ² + η² ≤ 1` with a
nondegenerate direction, `arcsin`/`atan2` are exact inverses of the
projection formulas. -/
lemma sin_branch_inverse (s0 c0 ξ η : ℝ) (h1 : s0 ^ 2 + c0 ^ 2 = 1)
    (hdom : ξ * ξ + η * η ≤ 1)
    (hw : ξ * ξ + (Real.sqrt (max (1 - ξ * ξ - η * η) 0) * c0
      - η * s0) ^ 2 ≠ 0) :
    Real.cos (Real.arcsin (Real.sqrt (max (1 - ξ * ξ - η * η) 0) * s0
        + η * c0))
      * Real.sin (atan2 ξ (Real.sqrt (max (1 - ξ * ξ - η * η) 0) * c0
        - η * s0)) = ξ ∧
    Real.sin (Real.arcsin (Real.sqrt (max (1 - ξ * ξ - η * η) 0) * s0
        + η * c0)) * c0
      - Real.cos (Real.arcsin (Real.sqrt (max (1 - ξ * ξ - η * η) 0) * s0
            + η * c0)) * s0
          * Real.cos (atan2 ξ (Real.sqrt (max (1 - ξ * ξ - η * η) 0) * c0
            - η * s0)) = η := by
  have hmax : max (1 - ξ * ξ - η * η) 0 = 1 - ξ * ξ - η * η :=
    max_eq_left (by linarith)
  set c := Real.sqrt (max (1 - ξ * ξ - η * η) 0) with hcdef
  have hc2 : c ^ 2 = 1 - ξ * ξ - η * η := by
    rw [hcdef, hmax]
    exact Real.sq_sqrt (by linarith)
  set u := c * s0 + η * c0 with hudef
  set v := c * c0 - η * s0 with hvdef
  have huv : u ^ 2 + v ^ 2 = 1 - ξ * ξ := by
    rw [hudef, hvdef]
    linear_combination (c ^ 2 + η ^ 2) * h1 + hc2
  have hvnn : (0:ℝ) ≤ ξ * ξ + v ^ 2 :=
    add_nonneg (mul_self_nonneg ξ) (sq_nonneg _)
  have hvpos : 0 < ξ * ξ + v ^ 2 := lt_of_le_of_ne hvnn (Ne.symm hw)
  have hu1 : u ^ 2 ≤ 1 := by nlinarith [sq_nonneg v, mul_self_nonneg ξ]
  have hsu : Real.sin (Real.arcsin u) = u :=
    Real.sin_arcsin (by nlinarith [sq_nonneg (u + 1)])
      (by nlinarith [sq_nonneg (u - 1)])
  have h1u : (1:ℝ) - u ^ 2 = ξ * ξ + v ^ 2 := by linarith
  set ρ := Real.sqrt (ξ * ξ + v ^ 2) with hρdef
  have hρ2 : ρ ^ 2 = ξ * ξ + v ^ 2 := Real.sq_sqrt hvnn
  have hρpos : 0 < ρ := Real.sqrt_pos.mpr hvpos
  have hρne : ρ ≠ 0 := ne_of_gt hρpos
  have hcu : Real.cos (Real.arcsin u) = ρ := by
    rw [Real.cos_arcsin, h1u, hρdef]
  have hA2 : v ^ 2 + ξ ^ 2 ≠ 0 := by
    rw [show v ^ 2 + ξ ^ 2 = ξ * ξ + v ^ 2 from by ring]
    exact hw
  have hsinA : Real.sin (atan2 ξ v) = ξ / ρ := by
    rw [sin_atan2]
    rw [hρdef]
    congr 2
    ring
  have hcosA : Real.cos (atan2 ξ v) = v / ρ := by
    rw [cos_atan2 _ _ hA2]
    rw [hρdef]
    congr 2
    ring
  constructor
  · rw [hcu, hsinA]
    field_simp
  · rw [hsu, hcu, hcosA]
    field_simp
    linear_combination (η * ρ) * h1

/-- The SIN round trip at the `project`/`deprojectRaw` level. -/
lemma sin_project_deproject (w : WcsTransform)
    (hproj : w.projection = Projection.sin) (ξ η : ℝ)
    (hdom : ξ * ξ + η * η ≤ 1)
    (hw : ξ * ξ + (Real.sqrt (max (1 - ξ * ξ - η * η) 0)
        * Real.cos (toRadians w.crval2)
      - η * Real.sin (toRadians w.crval2)) ^ 2 ≠ 0) :
    project w (wrapRa (toDegrees (deprojectRaw w ξ η).1))
      (toDegrees (deprojectRaw w ξ η).2)
      = some (toDegrees ξ, toDegrees η) := by
  have hdr : deprojectRaw w ξ η
      = (toRadians w.crval1 +
          atan2 ξ (Real.sqrt (max (1 - ξ * ξ - η * η) 0)
              * Real.cos (toRadians w.crval2)
            - η * Real.sin (toRadians w.crval2)),
         Real.arcsin (Real.sqrt (max (1 - ξ * ξ - η * η) 0)
            * Real.sin (toRadians w.crval2)
           + η * Real.cos (toRadians w.crval2))) := by
    unfold deprojectRaw
    rw [hproj]
  obtain ⟨hξ, hη⟩ := sin_branch_inverse (Real.sin (toRadians w.crval2))
    (Real.cos (toRadians w.crval2)) ξ η (Real.sin_sq_add_cos_sq _) hdom hw
  unfold project
  rw [hproj]
  rw [hdr]
  simp only [toRadians_toDegrees, cos_toRadians_wrapRa_sub,
    sin_toRadians_wrapRa_sub, add_sub_cancel_left]
  rw [hξ, hη]

set_option maxHeartbeats 1000000 in
/-- ARC (azimuthal equidistant) inverse: for `10⁻¹⁵ ≤ ρ = √(ξ²+η²) < π`
with a nondegenerate direction, the re-projected angular distance
`arccos(clamp(cos c))` is exactly `ρ` (so the small-angle guard cannot
fire) and the `c/sin c` scaling recovers `ξ` and `η` exactly. -/
lemma arc_branch_inverse (s0 c0 ξ η : ℝ) (h1 : s0 ^ 2 + c0 ^ 2 = 1)
    (hlo : 1 / 10 ^ 15 ≤ Real.sqrt (ξ * ξ + η * η))
    (hhi : Real.sqrt (ξ * ξ + η * η) < Real.pi)
    (hR : (ξ * Real.sin (Real.sqrt (ξ * ξ + η * η))) ^ 2
      + (Real.sqrt (ξ * ξ + η * η) * c0 * Real.cos (Real.sqrt (ξ * ξ + η * η))
        - η * s0 * Real.sin (Real.sqrt (ξ * ξ + η * η))) ^ 2 ≠ 0) :
    Real.arccos (max (min (Real.sin (Real.arcsin
          (Real.cos (Real.sqrt (ξ * ξ + η * η)) * s0
            + η / Real.sqrt (ξ * ξ + η * η)
              * Real.sin (Real.sqrt (ξ * ξ + η * η)) * c0)) * s0
        + Real.cos (Real.arcsin
            (Real.cos (Real.sqrt (ξ * ξ + η * η)) * s0
              + η / Real.sqrt (ξ * ξ + η * η)
                * Real.sin (Real.sqrt (ξ * ξ + η * η)) * c0)) * c0
          * Real.cos (atan2 (ξ * Real.sin (Real.sqrt (ξ * ξ + η * η)))
              (Real.sqrt (ξ * ξ + η * η) * c0
                  * Real.cos (Real.sqrt (ξ * ξ + η * η))
                - η * s0 * Real.sin (Real.sqrt (ξ * ξ + η * η))))) 1) (-1))
      = Real.sqrt (ξ * ξ + η * η) ∧
    Real.sqrt (ξ * ξ + η * η) / Real.sin (Real.sqrt (ξ * ξ + η * η))
        * Real.cos (Real.arcsin
            (Real.cos (Real.sqrt (ξ * ξ + η * η)) * s0
              + η / Real.sqrt (ξ * ξ + η * η)
                * Real.sin (Real.sqrt (ξ * ξ + η * η)) * c0))
        * Real.sin (atan2 (ξ * Real.sin (Real.sqrt (ξ * ξ + η * η)))
            (Real.sqrt (ξ * ξ + η * η) * c0
                * Real.cos (Real.sqrt (ξ * ξ + η * η))
              - η * s0 * Real.sin (Real.sqrt (ξ * ξ + η * η)))) = ξ ∧
    Real.sqrt (ξ * ξ + η * η) / Real.sin (Real.sqrt (ξ * ξ + η * η))
        * (Real.sin (Real.arcsin
              (Real.cos (Real.sqrt (ξ * ξ + η * η)) * s0
                + η / Real.sqrt (ξ * ξ + η * η)
                  * Real.sin (Real.sqrt (ξ * ξ + η * η)) * c0)) * c0
          - Real.cos (Real.arcsin
                (Real.cos (Real.sqrt (ξ * ξ + η * η)) * s0
                  + η / Real.sqrt (ξ * ξ + η * η)
                    * Real.sin (Real.sqrt (ξ * ξ + η * η)) * c0)) * s0
              * Real.cos (atan2 (ξ * Real.sin (Real.sqrt (ξ * ξ + η * η)))
                  (Real.sqrt (ξ * ξ + η * η) * c0
                      * Real.cos (Real.sqrt (ξ * ξ + η * η))
                    - η * s0 * Real.sin (Real.sqrt (ξ * ξ + η * η))))) = η := by
  set ρ := Real.sqrt (ξ * ξ + η * η) with hρdef
  have hρpos : 0 < ρ := lt_of_lt_of_le (by norm_num) hlo
  have hρne : ρ ≠ 0 := ne_of_gt hρpos
  have hρnn : (0:ℝ) ≤ ξ * ξ + η * η :=
    add_nonneg (mul_self_nonneg ξ) (mul_self_nonneg η)
  have hρ2 : ρ ^ 2 = ξ * ξ + η * η := Real.sq_sqrt hρnn
  set S := Real.sin ρ with hSdef
  set C := Real.cos ρ with hCdef
  have hSC : S ^ 2 + C ^ 2 = 1 := Real.sin_sq_add_cos_sq ρ
  have hSpos : 0 < S := Real.sin_pos_of_pos_of_lt_pi hρpos hhi
  have hSne : S ≠ 0 := ne_of_gt hSpos
  set U := C * s0 + η / ρ * S * c0 with hUdef
  set X := ξ * S with hXdef
  set W := ρ * c0 * C - η * s0 * S with hWdef
  have hXWnn : (0:ℝ) ≤ X ^ 2 + W ^ 2 := add_nonneg (sq_nonneg X) (sq_nonneg W)
  have hXWpos : 0 < X ^ 2 + W ^ 2 := lt_of_le_of_ne hXWnn (Ne.symm hR)
  set R := Real.sqrt (X ^ 2 + W ^ 2) with hRdef
  have hR2 : R ^ 2 = X ^ 2 + W ^ 2 := Real.sq_sqrt hXWnn
  have hRpos : 0 < R := Real.sqrt_pos.mpr hXWpos
  have hRne : R ≠ 0 := ne_of_gt hRpos
  have hUρ : U * ρ = ρ * C * s0 + η * S * c0 := by
    rw [hUdef]
    field_simp
    ring
  have e3 : (ρ * C * s0 + η * S * c0) ^ 2 + (X ^ 2 + W ^ 2) = ρ ^ 2 := by
    rw [hXdef, hWdef]
    linear_combination (ρ ^ 2 * C ^ 2 + η ^ 2 * S ^ 2) * h1 - S ^ 2 * hρ2
      + ρ ^ 2 * hSC
  have hUρ2 : U ^ 2 * ρ ^ 2 = (ρ * C * s0 + η * S * c0) ^ 2 := by
    rw [show U ^ 2 * ρ ^ 2 = (U * ρ) ^ 2 from by ring, hUρ]
  have h1U : (1:ℝ) - U ^ 2 = (X ^ 2 + W ^ 2) / ρ ^ 2 := by
    rw [eq_div_iff (by positivity)]
    nlinarith [e3, hUρ2]
  have hU2 : U ^ 2 ≤ 1 := by
    have hnn : (0:ℝ) ≤ (X ^ 2 + W ^ 2) / ρ ^ 2 := by positivity
    have h1U' : (0:ℝ) ≤ 1 - U ^ 2 := by
      rw [h1U]
      exact hnn
    linarith
  have hsu : Real.sin (Real.arcsin U) = U :=
    Real.sin_arcsin (by nlinarith [sq_nonneg (U + 1)])
      (by nlinarith [sq_nonneg (U - 1)])
  have hcu : Real.cos (Real.arcsin U) = R / ρ := by
    rw [Real.cos_arcsin, h1U, show (X ^ 2 + W ^ 2) / ρ ^ 2 = (R / ρ) ^ 2
      from by rw [div_pow, hR2]]
    exact Real.sqrt_sq (by positivity)
  have hA2 : W ^ 2 + X ^ 2 ≠ 0 := by
    rw [show W ^ 2 + X ^ 2 = X ^ 2 + W ^ 2 from by ring]
    exact ne_of_gt hXWpos
  have hsinA : Real.sin (atan2 X W) = X / R := by
    rw [sin_atan2]
    rw [hRdef]
    congr 2
    ring
  have hcosA : Real.cos (atan2 X W) = W / R := by
    rw [cos_atan2 _ _ hA2]
    rw [hRdef]
    congr 2
    ring
  have hcosc : Real.sin (Real.arcsin U) * s0
      + Real.cos (Real.arcsin U) * c0 * Real.cos (atan2 X W) = C := by
    rw [hsu, hcu, hcosA]
    have hstep : U * s0 + R / ρ * c0 * (W / R)
        = (U * ρ * s0 + c0 * W) / ρ := by
      field_simp
      ring
    rw [hstep, hUρ, hWdef, div_eq_iff hρne]
    linear_combination (ρ * C) * h1
  have hclamp : Real.arccos (max (min (Real.sin (Real.arcsin U) * s0
      + Real.cos (Real.arcsin U) * c0 * Real.cos (atan2 X W)) 1) (-1))
      = ρ := by
    rw [hcosc, hCdef]
    rw [min_eq_left (Real.cos_le_one ρ), max_eq_left (Real.neg_one_le_cos ρ)]
    exact Real.arccos_cos (le_of_lt hρpos) (le_of_lt hhi)
  refine ⟨hclamp, ?_, ?_⟩
  · rw [hcu, hsinA, hXdef]
    field_simp
    ring
  · rw [hsu, hcu, hcosA]
    have hstep : ρ / S * (U * c0 - R / ρ * s0 * (W / R))
        = (U * ρ * c0 - s0 * W) / S := by
      field_simp
      ring
    rw [hstep, hUρ, hWdef, div_eq_iff hSne]
    linear_combination (η * S) * h1

set_option maxHeartbeats 1000000 in
/-- The ARC round trip at the `project`/`deprojectRaw` level. -/
lemma arc_project_deproject (w : WcsTransform)
    (hproj : w.projection = Projection.arc) (ξ η : ℝ)
    (hlo : 1 / 10 ^ 15 ≤ Real.sqrt (ξ * ξ + η * η))
    (hhi : Real.sqrt (ξ * ξ + η * η) < Real.pi)
    (hR : (ξ * Real.sin (Real.sqrt (ξ * ξ + η * η))) ^ 2
      + (Real.sqrt (ξ * ξ + η * η) * Real.cos (toRadians w.crval2)
          * Real.cos (Real.sqrt (ξ * ξ + η * η))
        - η * Real.sin (toRadians w.crval2)
          * Real.sin (Real.sqrt (ξ * ξ + η * η))) ^ 2 ≠ 0) :
    project w (wrapRa (toDegrees (deprojectRaw w ξ η).1))
      (toDegrees (deprojectRaw w ξ η).2)
      = some (toDegrees ξ, toDegrees η) := by
  have hdr : deprojectRaw w ξ η
      = (toRadians w.crval1 +
          atan2 (ξ * Real.sin (Real.sqrt (ξ * ξ + η * η)))
            (Real.sqrt (ξ * ξ + η * η) * Real.cos (toRadians w.crval2)
                * Real.cos (Real.sqrt (ξ * ξ + η * η))
              - η * Real.sin (toRadians w.crval2)
                * Real.sin (Real.sqrt (ξ * ξ + η * η))),
         Real.arcsin (Real.cos (Real.sqrt (ξ * ξ + η * η))
            * Real.sin (toRadians w.crval2)
           + (η / Real.sqrt (ξ * ξ + η * η))
             * Real.sin (Real.sqrt (ξ * ξ + η * η))
             * Real.cos (toRadians w.crval2))) := by
    unfold deprojectRaw
    rw [hproj]
    simp only
    rw [if_neg (not_lt.mpr hlo)]
  obtain ⟨hclamp, hξ, hη⟩ := arc_branch_inverse (Real.sin (toRadians w.crval2))
    (Real.cos (toRadians w.crval2)) ξ η (Real.sin_sq_add_cos_sq _) hlo hhi hR
  unfold project
  rw [hproj]
  rw [hdr]
  simp only [toRadians_toDegrees, cos_toRadians_wrapRa_sub,
    sin_toRadians_wrapRa_sub, add_sub_cancel_left]
  rw [hclamp]
  rw [if_neg (by
    rw [abs_of_nonneg (Real.sqrt_nonneg _)]
    exact not_lt.mpr hlo)]
  rw [hξ, hη]

/-- The intermediate coordinate `ξ` in radians, as `deproject` feeds it
to the projection branch. -/
noncomputable def xiRad (w : WcsTransform) (x y : ℝ) : ℝ :=
  toRadians (xiDeg w x y)

/-- The intermediate coordinate `η` in radians. -/
noncomputable def etaRad (w : WcsTransform) (x y : ℝ) : ℝ :=
  toRadians (etaDeg w x y)

/-- C7 (amended): for every transform with `|det CD| ≥ 10⁻³⁰` and every
pixel, the round trip `world_to_pixel ∘ pixel_to_world` is EXACT — hence
within the claim's `10⁻³` per coordinate — on each of the four
projections over its branch's domain, where `ξ = xiRad`, `η = etaRad`
are the CD-mapped pixel offsets in radians and `δ₀ = CRVAL2`:
* TAN: whenever the deprojected direction is nondegenerate
  (`ξ² + (cos δ₀ − η·sin δ₀)² ≠ 0`) and `1 + ξ² + η² ≤ 10³⁰` (which
  keeps the code's `|denominator| < 10⁻¹⁵` NaN guard from firing);
* SIN: whenever `ξ² + η² ≤ 1` (the orthographic projection's domain
  disc) and the deprojected direction is nondegenerate;
* ARC: whenever `10⁻¹⁵ ≤ √(ξ² + η²) < π` (between the code's
  small-angle guard and the antipode) and the direction is
  nondegenerate;
* CAR: whenever `cos δ₀ ≠ 0` and the deprojected RA needs no wrap
  adjustment — the hypothesis forced by the counterexample, since
  `deproject` wraps RA into `[0, 360)` but CAR's `project` uses the raw
  difference `ra − CRVAL1`.  TAN, SIN and ARC consume `Δα` only through
  `sin`/`cos` and are immune to the wrap. -/
theorem wcs_roundtrip_all_projections (w : WcsTransform)
    (hdet : ¬ |w.cd00 * w.cd11 - w.cd01 * w.cd10| < 1 / 10 ^ 30)
    (x y : ℝ) :
    (w.projection = Projection.tan →
      xiRad w x y * xiRad w x y + (Real.cos (toRadians w.crval2)
        - etaRad w x y * Real.sin (toRadians w.crval2)) ^ 2 ≠ 0 →
      1 + xiRad w x y * xiRad w x y + etaRad w x y * etaRad w x y
        ≤ 10 ^ 30 →
      ∃ px py, world_to_pixel w (pixel_to_world w x y).1
          (pixel_to_world w x y).2 = some (px, py) ∧
        |px - x| < 1 / 1000 ∧ |py - y| < 1 / 1000) ∧
    (w.projection = Projection.sin →
      xiRad w x y * xiRad w x y + etaRad w x y * etaRad w x y ≤ 1 →
      xiRad w x y * xiRad w x y +
        (Real.sqrt (max (1 - xiRad w x y * xiRad w x y
              - etaRad w x y * etaRad w x y) 0)
            * Real.cos (toRadians w.crval2)
          - etaRad w x y * Real.sin (toRadians w.crval2)) ^ 2 ≠ 0 →
      ∃ px py, world_to_pixel w (pixel_to_world w x y).1
          (pixel_to_world w x y).2 = some (px, py) ∧
        |px - x| < 1 / 1000 ∧ |py - y| < 1 / 1000) ∧
    (w.projection = Projection.arc →
      1 / 10 ^ 15 ≤ Real.sqrt (xiRad w x y * xiRad w x y
        + etaRad w x y * etaRad w x y) →
      Real.sqrt (xiRad w x y * xiRad w x y + etaRad w x y * etaRad w x y)
        < Real.pi →
      (xiRad w x y * Real.sin (Real.sqrt (xiRad w x y * xiRad w x y
          + etaRad w x y * etaRad w x y))) ^ 2
        + (Real.sqrt (xiRad w x y * xiRad w x y
              + etaRad w x y * etaRad w x y) * Real.cos (toRadians w.crval2)
            * Real.cos (Real.sqrt (xiRad w x y * xiRad w x y
              + etaRad w x y * etaRad w x y))
          - etaRad w x y * Real.sin (toRadians w.crval2)
            * Real.sin (Real.sqrt (xiRad w x y * xiRad w x y
              + etaRad w x y * etaRad w x y))) ^ 2 ≠ 0 →
      ∃ px py, world_to_pixel w (pixel_to_world w x y).1
          (pixel_to_world w x y).2 = some (px, py) ∧
        |px - x| < 1 / 1000 ∧ |py - y| < 1 / 1000) ∧
    (w.projection = Projection.car →
      Real.cos (toRadians w.crval2) ≠ 0 →
      0 ≤ toDegrees (toRadians w.crval1
        + toRadians (xiDeg w x y) / Real.cos (toRadians w.crval2)) →
      toDegrees (toRadians w.crval1
        + toRadians (xiDeg w x y) / Real.cos (toRadians w.crval2)) < 360 →
      ∃ px py, world_to_pixel w (pixel_to_world w x y).1
          (pixel_to_world w x y).2 = some (px, py) ∧
        |px - x| < 1 / 1000 ∧ |py - y| < 1 / 1000) := by
  have hp2w : pixel_to_world w x y
      = (wrapRa (toDegrees (deprojectRaw w (xiRad w x y) (etaRad w x y)).1),
         toDegrees (deprojectRaw w (xiRad w x y) (etaRad w x y)).2) := rfl
  have hxi : toDegrees (xiRad w x y) = xiDeg w x y := toDegrees_toRadians _
  have heta : toDegrees (etaRad w x y) = etaDeg w x y := toDegrees_toRadians _
  refine ⟨?_, ?_, ?_, ?_⟩
  · intro hproj hq hb
    refine ⟨x, y, ?_, by rw [sub_self, abs_zero]; norm_num,
      by rw [sub_self, abs_zero]; norm_num⟩
    have hpr := tan_project_deproject w hproj (xiRad w x y) (etaRad w x y) hq hb
    rw [hxi, heta] at hpr
    rw [hp2w]
    exact world_to_pixel_of_project w _ _ x y hdet hpr
  · intro hproj hdom hw
    refine ⟨x, y, ?_, by rw [sub_self, abs_zero]; norm_num,
      by rw [sub_self, abs_zero]; norm_num⟩
    have hpr := sin_project_deproject w hproj (xiRad w x y) (etaRad w x y)
      hdom hw
    rw [hxi, heta] at hpr
    rw [hp2w]
    exact world_to_pixel_of_project w _ _ x y hdet hpr
  · intro hproj hlo hhi hR
    refine ⟨x, y, ?_, by rw [sub_self, abs_zero]; norm_num,
      by rw [sub_self, abs_zero]; norm_num⟩
    have hpr := arc_project_deproject w hproj (xiRad w x y) (etaRad w x y)
      hlo hhi hR
    rw [hxi, heta] at hpr
    rw [hp2w]
    exact world_to_pixel_of_project w _ _ x y hdet hpr
  · intro hproj hcos hwrap0 hwrap1
    exact wcs_car_roundtrip_exact w hproj hcos hdet x y hwrap0 hwrap1

/-- The identity-scale TAN transform of the C7 witness. -/
noncomputable def wcsTanId : WcsTransform :=
  ⟨1, 1, 0, 0, 1, 0, 0, 1, Projection.tan⟩

/-- Witness for C7's amended statement, on the TAN branch: identity-CD
TAN transform at RA/Dec (0,0); pixel (1/2, 1/3) round-trips exactly. -/
theorem wcs_roundtrip_all_projections_witness :
    ∃ px py,
      world_to_pixel wcsTanId (pixel_to_world wcsTanId (1/2) (1/3)).1
        (pixel_to_world wcsTanId (1/2) (1/3)).2 = some (px, py) ∧
      |px - 1/2| < 1 / 1000 ∧ |py - 1/3| < 1 / 1000 := by
  have hc : Real.cos (toRadians wcsTanId.crval2) = 1 := by
    rw [show wcsTanId.crval2 = 0 from rfl, toRadians_zero, Real.cos_zero]
  have hs : Real.sin (toRadians wcsTanId.crval2) = 0 := by
    rw [show wcsTanId.crval2 = 0 from rfl, toRadians_zero, Real.sin_zero]
  have hxirad : xiRad wcsTanId (1/2) (1/3) = toRadians (1/2) := by
    rw [xiRad, show xiDeg wcsTanId (1/2) (1/3) = 1/2 from by
      norm_num [xiDeg, wcsTanId]]
  have hetarad : etaRad wcsTanId (1/2) (1/3) = toRadians (1/3) := by
    rw [etaRad, show etaDeg wcsTanId (1/2) (1/3) = 1/3 from by
      norm_num [etaDeg, wcsTanId]]
  have hpi2 : Real.pi ^ 2 ≤ 16 := by
    nlinarith [Real.pi_le_four, Real.pi_pos]
  refine (wcs_roundtrip_all_projections wcsTanId
    (by show ¬ |(1:ℝ) * 1 - 0 * 0| < 1 / 10 ^ 30; norm_num)
    (1/2) (1/3)).1 rfl ?_ ?_
  · rw [hc, hs, hxirad, hetarad]
    have h0 : toRadians (1/3) * 0 = 0 := by ring
    rw [h0, sub_zero, one_pow]
    have : (0:ℝ) < toRadians (1/2) * toRadians (1/2) + 1 := by
      nlinarith [mul_self_nonneg (toRadians (1/2))]
    exact ne_of_gt this
  · rw [hxirad, hetarad]
    unfold toRadians
    nlinarith [hpi2, Real.pi_pos]
